import Mathlib

/-!
The command dispatcher and the configuration file of tkellen/cli.

A shallow embedding of `commands.go` (`Tree.Dispatch`, `run`, `Invalid`, `minArgs`) and of the
target operations of `configfile.go`, followed by the properties proved about them.

Modelling conventions.

* A Go `[]string` is a `List String`; a Go `int` is an `Int`.
* A Go `error` is observed through its message: `none` is the `nil` error.
* A leaf `func([]string) error` is a total function `List String → GoError`.
* A Go `interface{}` holding a command is a `Value`: a `Tree`, an `Fn`, a plain function, or a
  value of any other dynamic type (a string, `nil`, a pointer, ...).
* A Go `map[string]T` is `Option (List (String × T))`: `none` is the nil map, and the list is one
  enumeration of the entries.  A Go map never holds two entries with the same key, which the
  predicates `UniqueKeys` express where a statement depends on it.
* A run-time panic is an `Except.error`.
-/

set_option linter.dupNamespace false

namespace Cli

/-! ## Data model -/

/-- A Go `error`, observed through its message; `none` is `nil`. -/
abbrev GoError := Option String

/-- A Go `func([]string) error`. -/
abbrev Handler := List String → GoError

/-- The run-time panics the embedded code can raise. -/
inductive Panic where
  | indexOutOfRange (index : Int) (length : Nat)
  | assignNilMap
  | sliceOutOfRange (low : Int) (high : Int) (length : Nat)
  deriving DecidableEq, Repr

/-- The struct `Fn` of `commands.go`. -/
structure Fn where
  Fn : Handler
  MinArgs : Int
  Help : Handler

mutual
/-- A Go `interface{}` as `run` inspects it, by dynamic type. -/
inductive Value where
  | tree (t : Tree)
  | fn (cmd : Fn)
  | func (cmd : Handler)
  | other (dyn : String)
/-- The struct `Tree` of `commands.go`; `SubCommands` is the `Map`, `none` when it is nil. -/
inductive Tree where
  | mk (Fn : Value) (SubCommands : Option (List (String × Value)))
end

/-- The field `t.Fn`. -/
def Tree.Fn : Tree → Value
  | .mk f _ => f

/-- The field `t.SubCommands`. -/
def Tree.SubCommands : Tree → Option (List (String × Value))
  | .mk _ m => m

/-! ## `commands.go` -/

/-- Go's `%s` formatting of a `[]string`: the elements separated by blanks, in brackets. -/
def fmtStrings (a : List String) : String :=
  "[" ++ " ".intercalate a ++ "]"

/-- `Invalid`: `fmt.Errorf("invalid interface for: %s", args)`. -/
def Invalid (args : List String) : GoError :=
  some ("invalid interface for: " ++ fmtStrings args)

/-- `minArgs`: the wrapped command runs the fallback when `min == 0 || len(args) < min`. -/
def minArgs (min : Int) (fn : Handler) (fallback : Handler) : Handler :=
  fun args => if min = 0 ∨ (args.length : Int) < min then fallback args else fn args

/-- The local `argsUntilSub` of `Dispatch`: `fn.MinArgs` when `t.Fn` is an `Fn`, else `0`. -/
def argsUntilSub : Value → Int
  | .fn cmd => cmd.MinArgs
  | _ => 0

/-- The Go index expression `args[i]`, which panics outside `0 ≤ i < len(args)`. -/
def index (args : List String) (i : Int) : Except Panic String :=
  if 0 ≤ i then
    match args[i.toNat]? with
    | some s => .ok s
    | none => .error (.indexOutOfRange i args.length)
  else .error (.indexOutOfRange i args.length)

/-- The value of `append(args[0:g], args[g+1:]...)`. -/
def splice (args : List String) (g : Nat) : List String :=
  args.take g ++ args.drop (g + 1)

mutual
/-- `Tree.Dispatch`.  The `for ... range t.SubCommands` loop is `rangeSubCommands`, which yields
`none` when it ends without returning. -/
def Tree.Dispatch (t : Tree) (args : List String) : Except Panic GoError :=
  match t with
  | .mk tFn subCommands =>
    match subCommands with
    | some entries =>
      if (args.length : Int) > argsUntilSub tFn then
        match index args (argsUntilSub tFn) with
        | .error p => .error p
        | .ok subCommand =>
          match rangeSubCommands entries subCommand (argsUntilSub tFn).toNat args with
          | some result => result
          | none => run tFn args
      else run tFn args
    | none => run tFn args
/-- The loop over the entries of `t.SubCommands`, in the order of the enumeration. -/
def rangeSubCommands (entries : List (String × Value)) (subCommand : String) (g : Nat)
    (args : List String) : Option (Except Panic GoError) :=
  match entries with
  | [] => none
  | (key, item) :: rest =>
    if subCommand = key then some (run item (splice args g))
    else rangeSubCommands rest subCommand g args
/-- `run`: resolve a value by its dynamic type and invoke it. -/
def run (input : Value) (args : List String) : Except Panic GoError :=
  match input with
  | .tree t => Tree.Dispatch t args
  | .fn cmd => .ok (minArgs cmd.MinArgs cmd.Fn cmd.Help args)
  | .func cmd => .ok (cmd args)
  | .other _ => .ok (Invalid args)
end

/-! ## The call that ends a dispatch

Every `return` of `Dispatch`, `run` and the closure of `minArgs` is a tail call.  The functions
below are the same code with the final call left unevaluated, so that a statement can say which
function is applied, and to which list. -/

/-- The call in which a dispatch ends. -/
inductive Resolution where
  | call (f : Handler) (args : List String)
  | invalid (args : List String)
  | panic (p : Panic)

/-- Carrying out the final call. -/
def Resolution.result : Resolution → Except Panic GoError
  | .call f args => .ok (f args)
  | .invalid args => .ok (Invalid args)
  | .panic p => .error p

/-- The closure of `minArgs`, with its call left unevaluated. -/
def minArgsCall (min : Int) (fn : Handler) (fallback : Handler) (args : List String) :
    Resolution :=
  if min = 0 ∨ (args.length : Int) < min then .call fallback args else .call fn args

mutual
/-- `Tree.Dispatch`, with the final call left unevaluated. -/
def Tree.DispatchCall (t : Tree) (args : List String) : Resolution :=
  match t with
  | .mk tFn subCommands =>
    match subCommands with
    | some entries =>
      if (args.length : Int) > argsUntilSub tFn then
        match index args (argsUntilSub tFn) with
        | .error p => .panic p
        | .ok subCommand =>
          match rangeSubCommandsCall entries subCommand (argsUntilSub tFn).toNat args with
          | some result => result
          | none => runCall tFn args
      else runCall tFn args
    | none => runCall tFn args
/-- The loop over the entries, with the final call left unevaluated. -/
def rangeSubCommandsCall (entries : List (String × Value)) (subCommand : String) (g : Nat)
    (args : List String) : Option Resolution :=
  match entries with
  | [] => none
  | (key, item) :: rest =>
    if subCommand = key then some (runCall item (splice args g))
    else rangeSubCommandsCall rest subCommand g args
/-- `run`, with the final call left unevaluated. -/
def runCall (input : Value) (args : List String) : Resolution :=
  match input with
  | .tree t => Tree.DispatchCall t args
  | .fn cmd => minArgsCall cmd.MinArgs cmd.Fn cmd.Help args
  | .func cmd => .call cmd args
  | .other _ => .invalid args
end

/-! ## Predicates on trees -/

/-- The keys of an enumeration of a map. -/
def keys (entries : List (String × Value)) : List String :=
  entries.map Prod.fst

mutual
/-- Every `SubCommands` map of the value, at any depth, has pairwise distinct keys. -/
def Value.UniqueKeys : Value → Prop
  | .tree t => Tree.UniqueKeys t
  | _ => True
/-- Every `SubCommands` map of the tree, at any depth, has pairwise distinct keys. -/
def Tree.UniqueKeys : Tree → Prop
  | .mk f none => Value.UniqueKeys f
  | .mk f (some entries) =>
    Value.UniqueKeys f ∧ (entries.map Prod.fst).Nodup ∧ entriesUniqueKeys entries
/-- Every value of the enumeration satisfies `Value.UniqueKeys`. -/
def entriesUniqueKeys : List (String × Value) → Prop
  | [] => True
  | (_, item) :: rest => Value.UniqueKeys item ∧ entriesUniqueKeys rest
end

mutual
/-- Every own handler and every subcommand value, at any depth, is a plain function, an `Fn` or
a `Tree`. -/
def Value.Valid : Value → Prop
  | .tree t => Tree.Valid t
  | .fn _ => True
  | .func _ => True
  | .other _ => False
/-- `Value.Valid` for the own handler and the subcommand values of a tree. -/
def Tree.Valid : Tree → Prop
  | .mk f none => Value.Valid f
  | .mk f (some entries) => Value.Valid f ∧ entriesValid entries
/-- `Value.Valid` for every value of the enumeration. -/
def entriesValid : List (String × Value) → Prop
  | [] => True
  | (_, item) :: rest => Value.Valid item ∧ entriesValid rest
end

mutual
/-- No node that has a non-nil `SubCommands` map has a negative `MinArgs`. -/
def Value.GatesInRange : Value → Prop
  | .tree t => Tree.GatesInRange t
  | _ => True
/-- `Value.GatesInRange` for a tree. -/
def Tree.GatesInRange : Tree → Prop
  | .mk f none => Value.GatesInRange f
  | .mk f (some entries) => 0 ≤ argsUntilSub f ∧ Value.GatesInRange f ∧ entriesGatesInRange entries
/-- `Value.GatesInRange` for every value of the enumeration. -/
def entriesGatesInRange : List (String × Value) → Prop
  | [] => True
  | (_, item) :: rest => Value.GatesInRange item ∧ entriesGatesInRange rest
end

mutual
/-- The leaf functions of a value: plain functions, and `Fn.Fn` and `Fn.Help` of each `Fn`. -/
def Value.leaves : Value → List Handler
  | .tree t => Tree.leaves t
  | .fn cmd => [cmd.Fn, cmd.Help]
  | .func cmd => [cmd]
  | .other _ => []
/-- The leaf functions of a tree: those of its own handler and of its subcommand values. -/
def Tree.leaves : Tree → List Handler
  | .mk f none => Value.leaves f
  | .mk f (some entries) => Value.leaves f ++ entriesLeaves entries
/-- The leaf functions of the values of an enumeration. -/
def entriesLeaves : List (String × Value) → List Handler
  | [] => []
  | (_, item) :: rest => Value.leaves item ++ entriesLeaves rest
end

/-- Whether the dynamic type of the value is `Fn` (the type assertion `t.Fn.(Fn)` succeeds). -/
def Value.isFn : Value → Bool
  | .fn _ => true
  | _ => false

/-! ## The tree of `commands_test.go` -/

/-- The shape of the test handlers: `fmt.Errorf("%w: %s", err, args)` for an error `err` whose
message is `msg`. -/
def errorfW (msg : String) : Handler :=
  fun args => some (msg ++ ": " ++ fmtStrings args)

/-- The handler `ioEOF` of the test. -/
def ioEOF : Handler := errorfW "EOF"
/-- The handler `osErrNotExist` of the test. -/
def osErrNotExist : Handler := errorfW "file does not exist"
/-- The handler `osErrExist` of the test. -/
def osErrExist : Handler := errorfW "file already exists"
/-- The handler `osErrClosed` of the test. -/
def osErrClosed : Handler := errorfW "file already closed"
/-- The handler `httpErrContentLength` of the test. -/
def httpErrContentLength : Handler := errorfW "http: wrote more than the declared Content-Length"

/-- The nested tree stored under `"os"` in `TestDispatchCorrectCommand`. -/
def osTree : Tree :=
  .mk (.func osErrNotExist) (some [("exist", .func osErrExist), ("closed", .func osErrClosed)])

/-- The tree of `TestDispatchCorrectCommand`. -/
def testTree : Tree :=
  .mk (.func ioEOF)
    (some [("os", .tree osTree), ("http", .func httpErrContentLength), ("io", .func ioEOF),
      ("bad", .other "citizen")])

/-- `Descends t ks u`: starting at `t` and following the keys `ks` one after the other, each key
being stored with a nested tree in the subcommand map of a node whose own handler is not an
`Fn`, one arrives at `u`. -/
inductive Descends : Tree → List String → Tree → Prop where
  | here (t : Tree) : Descends t [] t
  | step (tFn : Value) (entries : List (String × Value)) (k : String) (child : Tree)
      (ks : List String) (u : Tree) (hgate : tFn.isFn = false) (hnd : (keys entries).Nodup)
      (hk : (k, Value.tree child) ∈ entries) (hrest : Descends child ks u) :
      Descends (.mk tFn (some entries)) (k :: ks) u

/-! ## `configfile.go` -/

/-- The value stored under the key `k` in an enumeration of entries, if there is one. -/
def lookupKey {V : Type} (k : String) : List (String × V) → Option V
  | [] => none
  | (key, v) :: rest => if k = key then some v else lookupKey k rest

/-- The Go map read `m[k]` in its comma-ok form: `none` when `k` is no key of `m`, also when
`m` is the nil map. -/
def mapGet {V : Type} (m : Option (List (String × V))) (k : String) : Option V :=
  match m with
  | none => none
  | some entries => lookupKey k entries

/-- The Go map write `m[k] = v` on a non-nil map: the entry of `k` is replaced where there is
one, and a new entry is added otherwise. -/
def mapSet {V : Type} (k : String) (v : V) : List (String × V) → List (String × V)
  | [] => [(k, v)]
  | (key, w) :: rest => if k = key then (key, v) :: rest else (key, w) :: mapSet k v rest

/-- The type `ConfigTarget`, a `map[string]string`. -/
abbrev ConfigTarget := Option (List (String × String))

/-- The struct `ConfigFile`. -/
structure ConfigFile where
  Targets : Option (List (String × ConfigTarget))

/-- `ConfigFile.Create`; the result is the configuration the receiver points to afterwards.
Writing to a nil `Targets` map panics. -/
def ConfigFile.Create (config : ConfigFile) (name : String) (storeType : String) :
    Except Panic ConfigFile :=
  let targets := config.Targets
  match mapGet targets name with
  | some _ => .ok config
  | none =>
    match config.Targets with
    | none => .error .assignNilMap
    | some entries => .ok ⟨some (mapSet name (some [("type", storeType)]) entries)⟩

/-- The tree of the test without the entry `"bad": "citizen"`. -/
def validTree : Tree :=
  .mk (.func ioEOF)
    (some [("os", .tree osTree), ("http", .func httpErrContentLength), ("io", .func ioEOF)])

mutual
/-- `Value.Reordered v w`: `w` is `v` with the entries of each subcommand map, at any depth,
enumerated in another order. -/
def Value.Reordered : Value → Value → Prop
  | .tree t, w => ∃ u, w = .tree u ∧ Tree.Reordered t u
  | .fn cmd, w => w = .fn cmd
  | .func cmd, w => w = .func cmd
  | .other dyn, w => w = .other dyn
/-- `Tree.Reordered t u`: the own handlers correspond, and the entries of `u` are a permutation
of entries that correspond one by one to those of `t`. -/
def Tree.Reordered : Tree → Tree → Prop
  | .mk f none, u => ∃ f2, u = .mk f2 none ∧ Value.Reordered f f2
  | .mk f (some entries), u =>
    ∃ f2 entries2 entries3, u = .mk f2 (some entries3) ∧ Value.Reordered f f2
      ∧ entriesReordered entries entries2 ∧ entries2.Perm entries3
/-- The two enumerations have the same keys in the same order, with corresponding values. -/
def entriesReordered : List (String × Value) → List (String × Value) → Prop
  | [], l => l = []
  | (key, item) :: rest, l =>
    ∃ item2 rest2, l = (key, item2) :: rest2 ∧ Value.Reordered item item2
      ∧ entriesReordered rest rest2
end

/-- The tree of the test with the entries of both subcommand maps enumerated backwards. -/
def testTreeReversed : Tree :=
  .mk (.func ioEOF)
    (some [("bad", .other "citizen"), ("io", .func ioEOF), ("http", .func httpErrContentLength),
      ("os", .tree (.mk (.func osErrNotExist)
        (some [("closed", .func osErrClosed), ("exist", .func osErrExist)])))])

/-- The Go builtin `delete(m, k)` on the entries of a non-nil map: no entry with the key `k`
is left. -/
def mapDelete {V : Type} (k : String) : List (String × V) → List (String × V)
  | [] => []
  | (key, v) :: rest => if k = key then mapDelete k rest else (key, v) :: mapDelete k rest

/-- The Go builtin `len(m)` of a map; the nil map has length `0`. -/
def mapLen {V : Type} : Option (List (String × V)) → Nat
  | none => 0
  | some entries => entries.length

/-- `ConfigFile.Target`: the configuration the receiver points to afterwards, the pointer
returned (`none` is the nil pointer) and the error. -/
def ConfigFile.Target (config : ConfigFile) (name : String) :
    ConfigFile × Option ConfigTarget × GoError :=
  let targets := config.Targets
  match mapGet targets name with
  | some targeted => (config, some targeted, none)
  | none => (config, none, some (name ++ " target not found"))

/-- `ConfigFile.Delete`; `delete` on a nil map does nothing. -/
def ConfigFile.Delete (config : ConfigFile) (name : String) : ConfigFile :=
  ⟨config.Targets.map (mapDelete name)⟩

/-- `ConfigTarget.Set`; the result is the target the receiver points to afterwards. Writing to a
nil map panics. -/
def ConfigTarget.Set (target : ConfigTarget) (key : String) (value : String) :
    Except Panic ConfigTarget :=
  match target with
  | none => .error .assignNilMap
  | some entries => .ok (some (mapSet key value entries))

/-- `ConfigTarget.Delete`; `delete` on a nil map does nothing. -/
def ConfigTarget.Delete (target : ConfigTarget) (key : String) : ConfigTarget :=
  target.map (mapDelete key)

/-- `ConfigTarget.Get`: the value stored under `key`, or the zero value `""`. -/
def ConfigTarget.Get (target : ConfigTarget) (key : String) : String :=
  match mapGet target key with
  | some value => value
  | none => ""

/-! ## Bounds of the slice expressions -/

/-- The Go slice expression `args[lo:hi]`. Go panics outside `0 ≤ lo ≤ hi ≤ cap(args)`; the
check made here, against `len(args) ≤ cap(args)`, is the stricter one. -/
def slice (args : List String) (lo hi : Int) : Except Panic (List String) :=
  if 0 ≤ lo ∧ lo ≤ hi ∧ hi ≤ (args.length : Int) then .ok ((args.take hi.toNat).drop lo.toNat)
  else .error (.sliceOutOfRange lo hi args.length)

/-- `append(args[0:g], args[g+1:]...)` with both slice expressions checked. -/
def spliceChecked (args : List String) (g : Int) : Except Panic (List String) :=
  match slice args 0 g with
  | .error p => .error p
  | .ok front =>
    match slice args (g + 1) (args.length : Int) with
    | .error p => .error p
    | .ok back => .ok (front ++ back)

mutual
/-- `Tree.Dispatch` with the two slice expressions checked as the index expression is. -/
def Tree.DispatchChecked (t : Tree) (args : List String) : Except Panic GoError :=
  match t with
  | .mk tFn subCommands =>
    match subCommands with
    | some entries =>
      if (args.length : Int) > argsUntilSub tFn then
        match index args (argsUntilSub tFn) with
        | .error p => .error p
        | .ok subCommand =>
          match rangeSubCommandsChecked entries subCommand (argsUntilSub tFn) args with
          | some result => result
          | none => runChecked tFn args
      else runChecked tFn args
    | none => runChecked tFn args
/-- The loop over the entries, with the slice expressions checked. -/
def rangeSubCommandsChecked (entries : List (String × Value)) (subCommand : String) (g : Int)
    (args : List String) : Option (Except Panic GoError) :=
  match entries with
  | [] => none
  | (key, item) :: rest =>
    if subCommand = key then
      some (match spliceChecked args g with
        | .error p => .error p
        | .ok spliced => runChecked item spliced)
    else rangeSubCommandsChecked rest subCommand g args
/-- `run`, calling `Tree.DispatchChecked`. -/
def runChecked (input : Value) (args : List String) : Except Panic GoError :=
  match input with
  | .tree t => Tree.DispatchChecked t args
  | .fn cmd => .ok (minArgs cmd.MinArgs cmd.Fn cmd.Help args)
  | .func cmd => .ok (cmd args)
  | .other _ => .ok (Invalid args)
end

mutual
/-- Every `Fn` of the value, as own handler or as subcommand value at any depth, has
`MinArgs ≥ 0`. -/
def Value.NonnegGates : Value → Prop
  | .tree t => Tree.NonnegGates t
  | .fn cmd => 0 ≤ cmd.MinArgs
  | _ => True
/-- `Value.NonnegGates` for the own handler and the subcommand values of a tree. -/
def Tree.NonnegGates : Tree → Prop
  | .mk f none => Value.NonnegGates f
  | .mk f (some entries) => Value.NonnegGates f ∧ entriesNonnegGates entries
/-- `Value.NonnegGates` for every value of the enumeration. -/
def entriesNonnegGates : List (String × Value) → Prop
  | [] => True
  | (_, item) :: rest => Value.NonnegGates item ∧ entriesNonnegGates rest
end

/-- The tree of gating: an `Fn` with `MinArgs = 1` as own handler and the subcommand `sub`. -/
def gatedTree : Tree :=
  .mk (.fn ⟨ioEOF, 1, osErrClosed⟩) (some [("sub", .func osErrExist)])

/-! ## The recursion, by depth

Go's recursion between `Dispatch` and `run` is general recursion. The functions below are the
same code with a bound on the depth of the calls: each call of `Dispatch` or of `run` uses one
unit, and `none` means that the bound was reached before a result. -/

/-- The loop over the entries, where `runItem` resolves a matched value. -/
def rangeSubCommandsFuel (runItem : Value → List String → Option (Except Panic GoError))
    (entries : List (String × Value)) (subCommand : String) (g : Nat) (args : List String) :
    Option (Option (Except Panic GoError)) :=
  match entries with
  | [] => none
  | (key, item) :: rest =>
    if subCommand = key then some (runItem item (splice args g))
    else rangeSubCommandsFuel runItem rest subCommand g args

mutual
/-- `Tree.Dispatch` with at most `fuel` nested calls. -/
def Tree.DispatchFuel (fuel : Nat) (t : Tree) (args : List String) :
    Option (Except Panic GoError) :=
  match fuel with
  | 0 => none
  | fuel + 1 =>
    if (args.length : Int) > argsUntilSub t.Fn ∧ t.SubCommands.isSome then
      match index args (argsUntilSub t.Fn) with
      | .error p => some (.error p)
      | .ok subCommand =>
        match rangeSubCommandsFuel (runFuel fuel) (t.SubCommands.getD []) subCommand
            (argsUntilSub t.Fn).toNat args with
        | some result => result
        | none => runFuel fuel t.Fn args
    else runFuel fuel t.Fn args
/-- `run` with at most `fuel` nested calls. -/
def runFuel (fuel : Nat) (input : Value) (args : List String) :
    Option (Except Panic GoError) :=
  match fuel with
  | 0 => none
  | fuel + 1 =>
    match input with
    | .tree t => Tree.DispatchFuel fuel t args
    | .fn cmd => some (.ok (minArgs cmd.MinArgs cmd.Fn cmd.Help args))
    | .func cmd => some (.ok (cmd args))
    | .other _ => some (.ok (Invalid args))
end

mutual
/-- The depth of the calls a value can cause: one for `run`, and that of the tree it holds. -/
def Value.height : Value → Nat
  | .tree t => Tree.height t + 1
  | _ => 1
/-- The depth of the calls a tree can cause: one for `Dispatch`, and the largest of its own
handler and its subcommand values. -/
def Tree.height : Tree → Nat
  | .mk f none => Value.height f + 1
  | .mk f (some entries) => max (Value.height f) (entriesHeight entries) + 1
/-- The largest height of the values of an enumeration. -/
def entriesHeight : List (String × Value) → Nat
  | [] => 0
  | (_, item) :: rest => max (Value.height item) (entriesHeight rest)
end

/-! ## The slice, its backing array and the tokens removed

A Go `[]string` is a window of `len` elements at the start of a backing array. `Dispatch` only
ever passes on windows that start where the caller's window starts, so a slice is modelled by
the backing array from that point on and the length of the window; the list of the other models
is `array.take len`. `append(args[0:g], args[g+1:]...)` has room in the backing array and
writes in place. Leaf functions are taken not to write to the array. -/

/-- The state in which a dispatch makes its final call: the backing array, the length of the
slice handed to that call, and the tokens removed on the way, in the order of removal. -/
structure Final where
  array : List String
  len : Nat
  removed : List String

/-- The backing array after `append(args[0:g], args[g+1:]...)` on the window of length `len`:
the elements of the window after index `g` move one place to the left, and what lies from the
last place of the window on is left as it is. -/
def spliceArray (array : List String) (len : Nat) (g : Nat) : List String :=
  array.take g ++ (array.take len).drop (g + 1) ++ array.drop (len - 1)

/-- The final state of a descent through the subcommand `token`. -/
def Final.descend (token : String) (after : Final) : Final :=
  ⟨after.array, after.len, token :: after.removed⟩

mutual
/-- `Tree.Dispatch` on a slice, followed up to the final call. -/
def Tree.DispatchFinal (t : Tree) (array : List String) (len : Nat) : Final :=
  match t with
  | .mk tFn subCommands =>
    match subCommands with
    | some entries =>
      if (len : Int) > argsUntilSub tFn then
        match index (array.take len) (argsUntilSub tFn) with
        | .error _ => ⟨array, len, []⟩
        | .ok subCommand =>
          match rangeSubCommandsFinal entries subCommand (argsUntilSub tFn).toNat array len with
          | some result => result
          | none => runFinal tFn array len
      else runFinal tFn array len
    | none => runFinal tFn array len
/-- The loop over the entries, on a slice. -/
def rangeSubCommandsFinal (entries : List (String × Value)) (subCommand : String) (g : Nat)
    (array : List String) (len : Nat) : Option Final :=
  match entries with
  | [] => none
  | (key, item) :: rest =>
    if subCommand = key then
      some (Final.descend subCommand (runFinal item (spliceArray array len g) (len - 1)))
    else rangeSubCommandsFinal rest subCommand g array len
/-- `run` on a slice, followed up to the final call. -/
def runFinal (input : Value) (array : List String) (len : Nat) : Final :=
  match input with
  | .tree t => Tree.DispatchFinal t array len
  | _ => ⟨array, len, []⟩
end

mutual
/-- The keys of all subcommand maps of a value, at any depth. -/
def Value.allKeys : Value → List String
  | .tree t => Tree.allKeys t
  | _ => []
/-- The keys of all subcommand maps of a tree, at any depth. -/
def Tree.allKeys : Tree → List String
  | .mk f none => Value.allKeys f
  | .mk f (some entries) => Value.allKeys f ++ (keys entries ++ entriesAllKeys entries)
/-- The keys of all subcommand maps of the values of an enumeration. -/
def entriesAllKeys : List (String × Value) → List String
  | [] => []
  | (_, item) :: rest => Value.allKeys item ++ entriesAllKeys rest
end

/-- The final call applies a leaf function, or `Invalid`, to the list `a`. -/
def Resolution.passes (r : Resolution) (a : List String) : Prop :=
  (∃ f, r = .call f a) ∨ r = .invalid a

/-- `Settles r final args ks`: the final call `r` is made on the window of `final`, which is
`args` without the tokens removed, in the same order, and every token removed is one of `ks`. -/
def Settles (r : Resolution) (final : Final) (args : List String) (ks : List String) : Prop :=
  ∃ a, r.passes a ∧ a = final.array.take final.len
    ∧ a.length + final.removed.length = args.length
    ∧ a.Sublist args
    ∧ args.Perm (a ++ final.removed)
    ∧ ∀ s ∈ final.removed, s ∈ ks

/-- A tree with the two subcommands `a` and `b`. -/
def abTree : Tree :=
  .mk (.func ioEOF) (some [("a", .func osErrExist), ("b", .func osErrClosed)])

/-- The arguments are non-empty and hold no blank, as the fields of a command line do. -/
def blankFree (a : List String) : Prop :=
  ∀ x ∈ a, x ≠ "" ∧ ' ' ∉ x.data

/-! # Theorems -/

/-! ## Auxiliary facts -/

theorem index_natCast {args : List String} {g : Nat} {s : String} (h : args[g]? = some s) :
    index args (g : Int) = .ok s := by
  simp [index, h]

theorem index_neg {args : List String} {i : Int} (h : i < 0) :
    index args i = .error (.indexOutOfRange i args.length) := by
  simp [index, Int.not_le.mpr h]

theorem rangeSubCommands_of_not_mem (entries : List (String × Value)) (s : String) (g : Nat)
    (args : List String) (h : s ∉ keys entries) :
    rangeSubCommands entries s g args = none := by
  induction entries with
  | nil => simp [rangeSubCommands]
  | cons e rest ih =>
    obtain ⟨key, item⟩ := e
    simp only [keys, List.map_cons, List.mem_cons, not_or] at h
    rw [rangeSubCommands, if_neg h.1]
    exact ih h.2

theorem rangeSubCommands_of_mem (entries : List (String × Value)) (s : String) (v : Value)
    (g : Nat) (args : List String) (hnd : (keys entries).Nodup) (h : (s, v) ∈ entries) :
    rangeSubCommands entries s g args = some (run v (splice args g)) := by
  induction entries with
  | nil => simp at h
  | cons e rest ih =>
    obtain ⟨key, item⟩ := e
    simp only [keys, List.map_cons, List.nodup_cons] at hnd
    rcases List.mem_cons.mp h with heq | hmem
    · cases heq
      rw [rangeSubCommands, if_pos rfl]
    · have hne : s ≠ key := by
        rintro rfl
        exact hnd.1 (List.mem_map.mpr ⟨(s, v), hmem, rfl⟩)
      rw [rangeSubCommands, if_neg hne]
      exact ih hnd.2 hmem

theorem argsUntilSub_of_not_isFn {v : Value} (h : v.isFn = false) : argsUntilSub v = 0 := by
  cases v <;> simp_all [Value.isFn, argsUntilSub]

theorem splice_zero_cons (k : String) (rest : List String) : splice (k :: rest) 0 = rest := by
  simp [splice]

/-- When the candidate token exists and is the key of an entry, `Dispatch` resolves the value of
that entry on the spliced list. -/
theorem dispatch_of_mem (tFn : Value) (entries : List (String × Value)) (args : List String)
    (g : Nat) (s : String) (v : Value) (hg : argsUntilSub tFn = (g : Int))
    (hs : args[g]? = some s) (hnd : (keys entries).Nodup) (hv : (s, v) ∈ entries) :
    Tree.Dispatch (.mk tFn (some entries)) args = run v (splice args g) := by
  have hlen : g < args.length := by
    rcases Nat.lt_or_ge g args.length with h | h
    · exact h
    · rw [List.getElem?_eq_none h] at hs; cases hs
  rw [Tree.Dispatch, hg, if_pos (by exact_mod_cast hlen), index_natCast hs]
  simp only [Int.toNat_ofNat]
  rw [rangeSubCommands_of_mem entries s v g args hnd hv]

/-- When the candidate token exists and is no key, `Dispatch` resolves the own handler. -/
theorem dispatch_of_not_mem (tFn : Value) (entries : List (String × Value))
    (args : List String) (g : Nat) (hg : argsUntilSub tFn = (g : Int))
    (hs : ∀ s, args[g]? = some s → s ∉ keys entries) :
    Tree.Dispatch (.mk tFn (some entries)) args = run tFn args := by
  rw [Tree.Dispatch, hg]
  split
  · rename_i hlen
    have hlen2 : g < args.length := by exact_mod_cast hlen
    have hget : args[g]? = some args[g] := List.getElem?_eq_getElem hlen2
    rw [index_natCast hget]
    simp only [Int.toNat_ofNat]
    rw [rangeSubCommands_of_not_mem entries _ g args (hs _ hget)]
  · rfl

theorem dispatch_nilMap (tFn : Value) (args : List String) :
    Tree.Dispatch (.mk tFn none) args = run tFn args := by
  rw [Tree.Dispatch]

/-- Without a match, `Dispatch` resolves the own handler on the list as it is. -/
theorem dispatch_resolves_own (tFn : Value) (subCommands : Option (List (String × Value)))
    (args : List String)
    (h : (args.length : Int) ≤ argsUntilSub tFn ∨ subCommands = none ∨
      (0 ≤ argsUntilSub tFn ∧ ∀ entries, subCommands = some entries →
        ∀ s, args[(argsUntilSub tFn).toNat]? = some s → s ∉ keys entries)) :
    Tree.Dispatch (.mk tFn subCommands) args = run tFn args := by
  cases subCommands with
  | none => exact dispatch_nilMap tFn args
  | some entries =>
    rcases h with h | h | ⟨h0, h⟩
    · rw [Tree.Dispatch, if_neg (by omega)]
    · cases h
    · obtain ⟨g, hg⟩ := Int.eq_ofNat_of_zero_le h0
      refine dispatch_of_not_mem tFn entries args g hg ?_
      intro s hs
      refine h entries rfl s ?_
      rw [hg]
      simpa using hs

theorem rangeSubCommandsCall_of_not_mem (entries : List (String × Value)) (s : String)
    (g : Nat) (args : List String) (h : s ∉ keys entries) :
    rangeSubCommandsCall entries s g args = none := by
  induction entries with
  | nil => simp [rangeSubCommandsCall]
  | cons e rest ih =>
    obtain ⟨key, item⟩ := e
    simp only [keys, List.map_cons, List.mem_cons, not_or] at h
    rw [rangeSubCommandsCall, if_neg h.1]
    exact ih h.2

/-! ## C1: exact-match routing -/

/-- C1. For a tree whose own handler is not an `Fn` (gate 0), a key `k` of its subcommands whose
value is the plain function `H`, and any list `rest`, `Dispatch (k :: rest)` returns `H rest`:
the matched token is removed and the remaining arguments are passed in their order. -/
theorem dispatch_exact_match (tFn : Value) (entries : List (String × Value)) (k : String)
    (H : Handler) (rest : List String) (hgate : tFn.isFn = false)
    (hnd : (keys entries).Nodup) (hk : (k, Value.func H) ∈ entries) :
    Tree.Dispatch (.mk tFn (some entries)) (k :: rest) = .ok (H rest) := by
  have hg : argsUntilSub tFn = ((0 : Nat) : Int) := by
    simpa using argsUntilSub_of_not_isFn hgate
  rw [dispatch_of_mem tFn entries (k :: rest) 0 k (.func H) hg (by simp) hnd hk,
    splice_zero_cons, run]

/-- C1 on a tree with the subcommands `a` and `b`: `Dispatch [a, x]` is `H1 [x]`. -/
theorem dispatch_exact_match_witness :
    (Value.func ioEOF).isFn = false
      ∧ (keys [("a", Value.func osErrExist), ("b", Value.func osErrClosed)]).Nodup
      ∧ ("a", Value.func osErrExist) ∈ [("a", Value.func osErrExist), ("b", Value.func osErrClosed)]
      ∧ Tree.Dispatch
          (.mk (.func ioEOF) (some [("a", .func osErrExist), ("b", .func osErrClosed)]))
          ["a", "x"] = .ok (osErrExist ["x"]) :=
  ⟨rfl, by simp [keys], by simp,
    dispatch_exact_match _ _ "a" osErrExist ["x"] rfl (by simp [keys]) (by simp)⟩

/-! ## C2: no-match fallthrough -/

/-- C2, as stated, fails where the gate is negative: a node whose own handler is an `Fn` with
`MinArgs = -1` and whose subcommand map is empty but not nil has no subcommands, yet `Dispatch []`
panics on `args[-1]` while the own handler resolves to `Fn.Fn []`. -/
theorem dispatch_fallthrough_negative_gate :
    keys [] = []
      ∧ Tree.Dispatch (.mk (.fn ⟨osErrExist, -1, osErrClosed⟩) (some [])) []
          = .error (.indexOutOfRange (-1) 0)
      ∧ run (.fn ⟨osErrExist, -1, osErrClosed⟩) [] = .ok (osErrExist [])
      ∧ Tree.Dispatch (.mk (.fn ⟨osErrExist, -1, osErrClosed⟩) (some [])) []
          ≠ run (.fn ⟨osErrExist, -1, osErrClosed⟩) [] := by
  refine ⟨rfl, rfl, rfl, ?_⟩
  intro h
  cases h

/-- C2, amended. For a tree with gate `g` and a list `args` such that `len(args) ≤ g`, or the
subcommand map is nil, or `g ≥ 0` and the token `args[g]`, if there is one, is not a key of the
subcommand map (as when the map is empty), `Dispatch args` is the resolution of the own handler
on the unmodified `args`; when the own handler is a plain function `H0` it is `H0 args`. -/
theorem dispatch_fallthrough (tFn : Value) (subCommands : Option (List (String × Value)))
    (args : List String)
    (h : (args.length : Int) ≤ argsUntilSub tFn ∨ subCommands = none ∨
      (0 ≤ argsUntilSub tFn ∧ ∀ entries, subCommands = some entries →
        ∀ s, args[(argsUntilSub tFn).toNat]? = some s → s ∉ keys entries)) :
    Tree.Dispatch (.mk tFn subCommands) args = run tFn args
      ∧ ∀ H0, tFn = .func H0 → Tree.Dispatch (.mk tFn subCommands) args = .ok (H0 args) := by
  have main := dispatch_resolves_own tFn subCommands args h
  refine ⟨main, ?_⟩
  intro H0 hH0
  rw [main, hH0, run]

/-- C2 on the tree of the test: `Dispatch ["foo"]` is `tree.Fn ["foo"]`. -/
theorem dispatch_fallthrough_witness :
    ((0 : Int) ≤ argsUntilSub testTree.Fn ∧ ∀ entries, testTree.SubCommands = some entries →
        ∀ s, ["foo"][(argsUntilSub testTree.Fn).toNat]? = some s → s ∉ keys entries)
      ∧ Tree.Dispatch testTree ["foo"] = .ok (ioEOF ["foo"]) := by
  have hyp : (0 : Int) ≤ argsUntilSub testTree.Fn ∧ ∀ entries,
      testTree.SubCommands = some entries →
        ∀ s, ["foo"][(argsUntilSub testTree.Fn).toNat]? = some s → s ∉ keys entries := by
    refine ⟨by simp [testTree, Tree.Fn, argsUntilSub], ?_⟩
    intro entries he s hs
    simp only [testTree, Tree.SubCommands, Option.some.injEq] at he
    subst he
    simp [testTree, Tree.Fn, argsUntilSub] at hs
    subst hs
    simp [keys]
  exact ⟨hyp, (dispatch_fallthrough testTree.Fn testTree.SubCommands ["foo"]
    (Or.inr (Or.inr hyp))).2 ioEOF rfl⟩

/-! ## C3: the gate interacts with descent -/

/-- C3. For a tree whose own handler is an `Fn` with `MinArgs = g ≥ 0`, a list `args` longer than
`g` and a value `v` stored under the key `args[g]`, `Dispatch args` is the resolution of `v` on
`args[0..g) ++ args[g+1..]`: the token compared with the keys is the one at index `g`, exactly
that element is removed, and the list handed on is one shorter. -/
theorem dispatch_gate_descent (cmd : Fn) (entries : List (String × Value))
    (args : List String) (g : Nat) (s : String) (v : Value) (hg : cmd.MinArgs = (g : Int))
    (hs : args[g]? = some s) (hnd : (keys entries).Nodup) (hv : (s, v) ∈ entries) :
    Tree.Dispatch (.mk (.fn cmd) (some entries)) args
        = run v (args.take g ++ args.drop (g + 1))
      ∧ (args.take g ++ args.drop (g + 1)).length + 1 = args.length := by
  have hlen : g < args.length := by
    rcases Nat.lt_or_ge g args.length with h | h
    · exact h
    · rw [List.getElem?_eq_none h] at hs; cases hs
  refine ⟨dispatch_of_mem (.fn cmd) entries args g s v hg hs hnd hv, ?_⟩
  simp only [List.length_append, List.length_take, List.length_drop]
  omega

/-- C3 with `MinArgs = 1` and the subcommand `sub`: `[pre, sub, rest]` resolves the subcommand
on `[pre, rest]`. -/
theorem dispatch_gate_descent_witness :
    (Fn.mk ioEOF 1 osErrClosed).MinArgs = ((1 : Nat) : Int)
      ∧ ["pre", "sub", "rest"][1]? = some "sub"
      ∧ (keys [("sub", Value.func osErrExist)]).Nodup
      ∧ ("sub", Value.func osErrExist) ∈ [("sub", Value.func osErrExist)]
      ∧ Tree.Dispatch (.mk (.fn ⟨ioEOF, 1, osErrClosed⟩) (some [("sub", .func osErrExist)]))
          ["pre", "sub", "rest"] = .ok (osErrExist ["pre", "rest"]) :=
  ⟨rfl, rfl, by simp [keys], by simp,
    (dispatch_gate_descent ⟨ioEOF, 1, osErrClosed⟩ [("sub", .func osErrExist)]
      ["pre", "sub", "rest"] 1 "sub" (.func osErrExist) rfl rfl (by simp [keys]) (by simp)).1⟩

/-! ## C4: minimum-argument gating -/

/-- C4. For a tree whose own handler is `Fn {Fn: I, MinArgs: n, Help: F}` with `n ≥ 1`:
if `len(args) < n` then `Dispatch args = F args`; if `len(args) ≥ n` and no subcommand key
equals `args[n]` (as when `len(args) = n`, or there are no subcommands) then
`Dispatch args = I args`. The handler receives `args` unmodified. -/
theorem dispatch_minArgs_gating (I F : Handler) (n : Int)
    (subCommands : Option (List (String × Value))) (args : List String) (hn : 1 ≤ n) :
    ((args.length : Int) < n →
        Tree.Dispatch (.mk (.fn ⟨I, n, F⟩) subCommands) args = .ok (F args))
      ∧ (n ≤ (args.length : Int) →
          (∀ entries, subCommands = some entries →
            ∀ s, args[n.toNat]? = some s → s ∉ keys entries) →
          Tree.Dispatch (.mk (.fn ⟨I, n, F⟩) subCommands) args = .ok (I args)) := by
  constructor
  · intro hlt
    rw [dispatch_resolves_own (.fn ⟨I, n, F⟩) subCommands args
      (Or.inl (by simp only [argsUntilSub]; omega)), run]
    simp [minArgs, hlt]
  · intro hge hkeys
    rw [dispatch_resolves_own (.fn ⟨I, n, F⟩) subCommands args
      (Or.inr (Or.inr ⟨by simp only [argsUntilSub]; omega, hkeys⟩)), run]
    have h1 : ¬ n = 0 := by omega
    have h2 : ¬ (args.length : Int) < n := by omega
    simp [minArgs, h1, h2]

/-- C4 with `n = 2`: `Dispatch []` and `Dispatch [x]` call `F`; `Dispatch [x, y]` and
`Dispatch [x, y, z]` call `I`. -/
theorem dispatch_minArgs_gating_witness :
    (1 : Int) ≤ 2
      ∧ Tree.Dispatch (.mk (.fn ⟨osErrExist, 2, osErrClosed⟩) none) [] = .ok (osErrClosed [])
      ∧ Tree.Dispatch (.mk (.fn ⟨osErrExist, 2, osErrClosed⟩) none) ["x"]
          = .ok (osErrClosed ["x"])
      ∧ Tree.Dispatch (.mk (.fn ⟨osErrExist, 2, osErrClosed⟩) none) ["x", "y"]
          = .ok (osErrExist ["x", "y"])
      ∧ Tree.Dispatch (.mk (.fn ⟨osErrExist, 2, osErrClosed⟩) none) ["x", "y", "z"]
          = .ok (osErrExist ["x", "y", "z"]) :=
  ⟨by decide,
    (dispatch_minArgs_gating osErrExist osErrClosed 2 none [] (by decide)).1 (by decide),
    (dispatch_minArgs_gating osErrExist osErrClosed 2 none ["x"] (by decide)).1 (by decide),
    (dispatch_minArgs_gating osErrExist osErrClosed 2 none ["x", "y"] (by decide)).2
      (by decide) (fun _ h => by cases h),
    (dispatch_minArgs_gating osErrExist osErrClosed 2 none ["x", "y", "z"] (by decide)).2
      (by decide) (fun _ h => by cases h)⟩

/-! ## C5: `MinArgs = 0` always invokes the fallback -/

/-- C5. For `Fn {Fn: I, MinArgs: 0, Help: F}` and every list `args`, resolving the handler
returns `F args`, and the call made is the one of `F`, never of `I`. A tree with such an own
handler returns `F args` from `Dispatch` whenever no subcommand key equals `args[0]`, again by
calling `F`. -/
theorem run_minArgs_zero (I F : Handler) (args : List String) :
    run (.fn ⟨I, 0, F⟩) args = .ok (F args)
      ∧ runCall (.fn ⟨I, 0, F⟩) args = .call F args
      ∧ ∀ subCommands : Option (List (String × Value)),
          (∀ entries, subCommands = some entries →
            ∀ s, args[0]? = some s → s ∉ keys entries) →
          Tree.Dispatch (.mk (.fn ⟨I, 0, F⟩) subCommands) args = .ok (F args)
            ∧ Tree.DispatchCall (.mk (.fn ⟨I, 0, F⟩) subCommands) args = .call F args := by
  have hrun : run (.fn ⟨I, 0, F⟩) args = .ok (F args) := by
    rw [run]; simp [minArgs]
  have hcall : runCall (.fn ⟨I, 0, F⟩) args = .call F args := by
    rw [runCall]; simp [minArgsCall]
  refine ⟨hrun, hcall, ?_⟩
  intro subCommands hkeys
  constructor
  · rw [dispatch_resolves_own (.fn ⟨I, 0, F⟩) subCommands args
      (Or.inr (Or.inr ⟨by simp [argsUntilSub], by simpa [argsUntilSub] using hkeys⟩)), hrun]
  · cases subCommands with
    | none => rw [Tree.DispatchCall, hcall]
    | some entries =>
      rw [Tree.DispatchCall]
      simp only [argsUntilSub]
      split
      · rename_i hlen
        have hlen2 : 0 < args.length := by exact_mod_cast hlen
        have hget : args[0]? = some args[0] := List.getElem?_eq_getElem hlen2
        have hidx : index args 0 = .ok args[0] := index_natCast (g := 0) hget
        rw [hidx]
        simp only [Int.toNat_zero]
        rw [rangeSubCommandsCall_of_not_mem entries _ 0 args (hkeys entries rfl _ hget), hcall]
      · exact hcall

/-- C5 on a list long enough for any small minimum: the fallback is still the one called. -/
theorem run_minArgs_zero_witness :
    (∀ entries, (some [("sub", Value.func ioEOF)] : Option (List (String × Value)))
          = some entries → ∀ s, ["x", "y", "z"][0]? = some s → s ∉ keys entries)
      ∧ Tree.Dispatch (.mk (.fn ⟨osErrExist, 0, osErrClosed⟩) (some [("sub", .func ioEOF)]))
          ["x", "y", "z"] = .ok (osErrClosed ["x", "y", "z"]) := by
  have hyp : ∀ entries, (some [("sub", Value.func ioEOF)] : Option (List (String × Value)))
      = some entries → ∀ s, ["x", "y", "z"][0]? = some s → s ∉ keys entries := by
    intro entries he s hs
    simp only [Option.some.injEq] at he
    subst he
    simp at hs
    subst hs
    simp [keys]
  exact ⟨hyp, ((run_minArgs_zero osErrExist osErrClosed ["x", "y", "z"]).2.2 _ hyp).1⟩

/-! ## C6: nested trees -/

/-- C6. Along a chain of nested trees `t0, ..., tn` in which none of `t0 .. t(n-1)` has an `Fn`
as own handler and each `t(i+1)` is stored under the key `k(i+1)` in `t(i)`,
`t0.Dispatch ([k1, ..., kn] ++ rest) = tn.Dispatch rest`, for every `n ≥ 0`: each level consumes
exactly its own token. -/
theorem dispatch_nested (t0 tn : Tree) (ks rest : List String) (h : Descends t0 ks tn) :
    Tree.Dispatch t0 (ks ++ rest) = Tree.Dispatch tn rest := by
  induction h with
  | here t => rfl
  | step tFn entries k child ks u hgate hnd hk _ ih =>
    have hg : argsUntilSub tFn = ((0 : Nat) : Int) := by
      simpa using argsUntilSub_of_not_isFn hgate
    rw [List.cons_append,
      dispatch_of_mem tFn entries (k :: (ks ++ rest)) 0 k (.tree child) hg (by simp) hnd hk,
      splice_zero_cons, run]
    exact ih

/-- C6 on the tree of the test: `os beep boop` is dispatched by the nested `os` tree on
`[beep, boop]`, which invokes its own handler, and `os exist foo bar baz` invokes the `exist`
handler with `[foo, bar, baz]`. -/
theorem dispatch_nested_witness :
    Descends testTree ["os"] osTree
      ∧ Tree.Dispatch testTree (["os"] ++ ["beep", "boop"])
          = Tree.Dispatch osTree ["beep", "boop"]
      ∧ Tree.Dispatch testTree ["os", "beep", "boop"] = .ok (osErrNotExist ["beep", "boop"])
      ∧ Tree.Dispatch testTree ["os", "exist", "foo", "bar", "baz"]
          = .ok (osErrExist ["foo", "bar", "baz"]) := by
  have hd : Descends testTree ["os"] osTree :=
    Descends.step _ _ "os" osTree [] osTree rfl (by simp [keys]) (by simp) (Descends.here _)
  exact ⟨hd, dispatch_nested testTree osTree ["os"] ["beep", "boop"] hd, rfl, rfl⟩

/-! ## C7: invalid entries -/

theorem intercalate_go_data (acc s : String) (l : List String) :
    (String.intercalate.go acc s l).data
      = acc.data ++ (l.map (fun x => s.data ++ x.data)).flatten := by
  induction l generalizing acc with
  | nil => simp [String.intercalate.go]
  | cons x rest ih =>
    rw [String.intercalate.go, ih]
    simp [String.data_append, List.append_assoc]

theorem intercalate_data (s : String) (l : List String) :
    (s.intercalate l).data = s.data.intercalate (l.map String.data) := by
  cases l with
  | nil => rfl
  | cons x rest =>
    rw [String.intercalate, intercalate_go_data]
    simp only [List.intercalate, List.map_cons]
    induction rest generalizing x with
    | nil => simp
    | cons y rest ih =>
      simp only [List.map_cons, List.flatten_cons, List.intersperse, List.append_assoc]
      rw [ih y]

theorem map_data_eq_splitOn (a : List String) (ha : blankFree a) (hne : a ≠ []) :
    a.map String.data = List.splitOn ' ' (" ".intercalate a).data := by
  have hsa : ∀ l ∈ a.map String.data, ' ' ∉ l := by
    intro l hl
    obtain ⟨x, hx, rfl⟩ := List.mem_map.mp hl
    exact (ha x hx).2
  rw [intercalate_data]
  exact (List.splitOn_intercalate (a.map String.data) ' ' hsa (by simpa using hne)).symm

theorem intercalate_ne_nil (a : List String) (ha : blankFree a) (hne : a ≠ []) :
    (" ".intercalate a).data ≠ [] := by
  intro h
  have h1 := map_data_eq_splitOn a ha hne
  rw [h, List.splitOn_nil] at h1
  cases a with
  | nil => exact hne rfl
  | cons x rest =>
    simp only [List.map_cons, List.cons.injEq] at h1
    exact (ha x (List.mem_cons_self _ _)).1 (String.ext h1.1)

theorem intercalate_inj (a b : List String) (ha : blankFree a) (hb : blankFree b)
    (h : " ".intercalate a = " ".intercalate b) : a = b := by
  have hmap : a.map String.data = b.map String.data := by
    by_cases hae : a = []
    · by_cases hbe : b = []
      · rw [hae, hbe]
      · exfalso
        apply intercalate_ne_nil b hb hbe
        rw [← h, hae]
        rfl
    · by_cases hbe : b = []
      · exfalso
        apply intercalate_ne_nil a ha hae
        rw [h, hbe]
        rfl
      · rw [map_data_eq_splitOn a ha hae, map_data_eq_splitOn b hb hbe, h]
  exact List.map_injective_iff.mpr (fun x y hxy => String.ext hxy) hmap

theorem string_append_cancel_left (p x y : String) (h : p ++ x = p ++ y) : x = y := by
  have hd := congrArg String.data h
  simp only [String.data_append] at hd
  exact String.ext (List.append_cancel_left hd)

theorem string_append_cancel_right (p x y : String) (h : x ++ p = y ++ p) : x = y := by
  have hd := congrArg String.data h
  simp only [String.data_append] at hd
  exact String.ext (List.append_cancel_right hd)

theorem fmtStrings_inj (a b : List String) (ha : blankFree a) (hb : blankFree b)
    (h : fmtStrings a = fmtStrings b) : a = b := by
  simp only [fmtStrings] at h
  exact intercalate_inj a b ha hb
    (string_append_cancel_left _ _ _ (string_append_cancel_right _ _ _ h))

theorem Invalid_inj (a b : List String) (ha : blankFree a) (hb : blankFree b)
    (h : Invalid a = Invalid b) : a = b := by
  simp only [Invalid, Option.some.injEq] at h
  exact fmtStrings_inj a b ha hb (string_append_cancel_left _ _ _ h)

theorem data_infix_intercalate (a : List String) (x : String) (hx : x ∈ a) :
    x.data <:+: (" ".intercalate a).data := by
  cases a with
  | nil => cases hx
  | cons y rest =>
    rw [String.intercalate, intercalate_go_data]
    rcases List.mem_cons.mp hx with rfl | hmem
    · exact List.infix_append' [] x.data _
    · have h1 : (" ".data ++ x.data) ∈ rest.map (fun z => " ".data ++ z.data) :=
        List.mem_map.mpr ⟨x, hmem, rfl⟩
      have h2 : (" ".data ++ x.data) <:+: (rest.map (fun z => " ".data ++ z.data)).flatten :=
        List.infix_of_mem_flatten h1
      have h3 : x.data <:+: (" ".data ++ x.data) := (List.suffix_append _ _).isInfix
      exact (h3.trans h2).trans (List.suffix_append _ _).isInfix

theorem fmtStrings_contains (a : List String) (x : String) (hx : x ∈ a) :
    ∃ pre post, fmtStrings a = pre ++ x ++ post := by
  obtain ⟨s, t, hst⟩ := data_infix_intercalate a x hx
  refine ⟨"[" ++ String.mk s, String.mk t ++ "]", ?_⟩
  apply String.ext
  simp only [fmtStrings, String.data_append, ← hst, List.append_assoc]

/-- C7. A value `v` that is no tree, no `Fn` and no plain function resolves on a list `a` to
`Invalid a`, the error whose message is `invalid interface for: ` followed by the formatted
list. So when `v` is the matched subcommand of a node with gate `g`, `Dispatch args` is
`Invalid` of `args` with index `g` removed, and when `v` is the own handler and no subcommand
matches, `Dispatch args` is `Invalid args`. The message carries the list: every argument occurs
in it after the fixed text, and for arguments that are non-empty and hold no blank two lists
with the same message are the same list. -/
theorem run_invalid (v : Value) (hTree : ∀ t, v ≠ .tree t) (hFn : ∀ cmd, v ≠ .fn cmd)
    (hFunc : ∀ f, v ≠ .func f) :
    (∀ a, run v a = .ok (Invalid a) ∧ runCall v a = .invalid a
        ∧ Invalid a = some ("invalid interface for: " ++ fmtStrings a))
      ∧ (∀ (tFn : Value) (entries : List (String × Value)) (args : List String) (g : Nat)
          (s : String), argsUntilSub tFn = (g : Int) → args[g]? = some s →
          (keys entries).Nodup → (s, v) ∈ entries →
          Tree.Dispatch (.mk tFn (some entries)) args
            = .ok (Invalid (args.take g ++ args.drop (g + 1))))
      ∧ (∀ (subCommands : Option (List (String × Value))) (args : List String),
          (∀ entries, subCommands = some entries →
            ∀ s, args[0]? = some s → s ∉ keys entries) →
          Tree.Dispatch (.mk v subCommands) args = .ok (Invalid args))
      ∧ (∀ (a : List String) (x : String), x ∈ a →
          ∃ pre post, run v a = .ok (some ("invalid interface for: " ++ (pre ++ x ++ post))))
      ∧ (∀ a b : List String, blankFree a → blankFree b → run v a = run v b → a = b) := by
  obtain ⟨dyn, rfl⟩ : ∃ dyn, v = .other dyn := by
    cases v with
    | tree t => exact absurd rfl (hTree t)
    | fn cmd => exact absurd rfl (hFn cmd)
    | func f => exact absurd rfl (hFunc f)
    | other dyn => exact ⟨dyn, rfl⟩
  have hrun : ∀ a, run (.other dyn) a = .ok (Invalid a) := fun a => by rw [run]
  refine ⟨fun a => ⟨hrun a, by rw [runCall], rfl⟩, ?_, ?_, ?_, ?_⟩
  · intro tFn entries args g s hg hs hnd hv
    rw [dispatch_of_mem tFn entries args g s (.other dyn) hg hs hnd hv, hrun]
    rfl
  · intro subCommands args hkeys
    rw [dispatch_resolves_own (.other dyn) subCommands args
      (Or.inr (Or.inr ⟨by simp [argsUntilSub], by simpa [argsUntilSub] using hkeys⟩)), hrun]
  · intro a x hx
    obtain ⟨pre, post, hpp⟩ := fmtStrings_contains a x hx
    exact ⟨pre, post, by rw [hrun, Invalid, hpp]⟩
  · intro a b ha hb hab
    rw [hrun, hrun] at hab
    exact Invalid_inj a b ha hb (Except.ok.inj hab)

/-- C7 on the tree of the test, where `bad` maps to the string `citizen`:
`Dispatch [bad, times]` is the error `invalid interface for: [times]`. -/
theorem run_invalid_witness :
    (∀ t, Value.other "citizen" ≠ .tree t) ∧ (∀ cmd, Value.other "citizen" ≠ .fn cmd)
      ∧ (∀ f, Value.other "citizen" ≠ .func f)
      ∧ Tree.Dispatch testTree ["bad", "times"] = .ok (Invalid ["times"])
      ∧ Invalid ["times"] = some "invalid interface for: [times]"
      ∧ Invalid ["hard", "times"] = some "invalid interface for: [hard times]"
      ∧ Invalid [] = some "invalid interface for: []" := by
  have h1 : ∀ t, Value.other "citizen" ≠ .tree t := fun _ h => by cases h
  have h2 : ∀ cmd, Value.other "citizen" ≠ .fn cmd := fun _ h => by cases h
  have h3 : ∀ f, Value.other "citizen" ≠ .func f := fun _ h => by cases h
  refine ⟨h1, h2, h3, ?_, by decide, by decide, by decide⟩
  exact (run_invalid (.other "citizen") h1 h2 h3).2.1 (.func ioEOF)
    [("os", .tree osTree), ("http", .func httpErrContentLength), ("io", .func ioEOF),
      ("bad", .other "citizen")] ["bad", "times"] 0 "bad" rfl rfl (by simp [keys]) (by simp)

/-! ## C10: `ConfigFile.Create` -/

theorem mapGet_mapSet_self {V : Type} (k : String) (v : V) (entries : List (String × V)) :
    mapGet (some (mapSet k v entries)) k = some v := by
  induction entries with
  | nil => simp [mapSet, mapGet, lookupKey]
  | cons e rest ih =>
    obtain ⟨key, w⟩ := e
    simp only [mapGet] at ih
    by_cases h : k = key
    · simp [mapSet, mapGet, lookupKey, h]
    · simp [mapSet, mapGet, lookupKey, h, ih]

theorem mapGet_mapSet_of_ne {V : Type} (k : String) (v : V) (entries : List (String × V))
    (j : String) (hj : j ≠ k) :
    mapGet (some (mapSet k v entries)) j = mapGet (some entries) j := by
  induction entries with
  | nil => simp [mapSet, mapGet, lookupKey, hj]
  | cons e rest ih =>
    obtain ⟨key, w⟩ := e
    simp only [mapGet] at ih
    by_cases h : k = key
    · subst h
      simp [mapSet, mapGet, lookupKey, hj]
    · by_cases h2 : j = key
      · simp [mapSet, mapGet, lookupKey, h, h2]
      · simp [mapSet, mapGet, lookupKey, h, h2, ih]

/-- C10. For a `ConfigFile` whose `Targets` map is not nil, `Create name storeType` returns, and
afterwards `name` is a key of `Targets`; if it already was one, its target (and the whole
configuration) is what it was before; if it was not, it maps to exactly the target with the one
entry `type: storeType`; every other target is unchanged. A second `Create` of the same name,
with any store type, changes nothing. -/
theorem create_adds_never_overwrites (config : ConfigFile)
    (entries : List (String × ConfigTarget)) (name storeType : String)
    (h : config.Targets = some entries) :
    ∃ created, config.Create name storeType = .ok created
      ∧ (mapGet created.Targets name).isSome = true
      ∧ (∀ target, mapGet config.Targets name = some target →
          mapGet created.Targets name = some target ∧ created = config)
      ∧ (mapGet config.Targets name = none →
          mapGet created.Targets name = some (some [("type", storeType)]))
      ∧ (∀ other, other ≠ name → mapGet created.Targets other = mapGet config.Targets other)
      ∧ (∀ storeType2, created.Create name storeType2 = .ok created) := by
  obtain ⟨targets⟩ := config
  simp only at h
  subst h
  cases hget : mapGet (some entries) name with
  | some target =>
    have hc : (ConfigFile.mk (some entries)).Create name storeType
        = .ok (ConfigFile.mk (some entries)) := by
      simp only [ConfigFile.Create, hget]
    refine ⟨_, hc, by simp [hget], ?_, by simp, fun _ _ => rfl, ?_⟩
    · intro target2 h2
      exact ⟨hget.trans h2, rfl⟩
    · intro storeType2
      simp only [ConfigFile.Create, hget]
  | none =>
    have hc : (ConfigFile.mk (some entries)).Create name storeType
        = .ok ⟨some (mapSet name (some [("type", storeType)]) entries)⟩ := by
      simp only [ConfigFile.Create, hget]
    have hself := mapGet_mapSet_self name (some [("type", storeType)] : ConfigTarget) entries
    refine ⟨_, hc, by simp [hself], ?_, fun _ => hself, ?_, ?_⟩
    · intro target h2
      cases h2
    · intro other hne
      exact mapGet_mapSet_of_ne name _ entries other hne
    · intro storeType2
      simp only [ConfigFile.Create, hself]

/-- C10 on the two cases of `TestConfigFile_Create`: a new target `test` is added to an empty
map, and a second `Create` of it with another store type leaves it as it is. -/
theorem create_adds_never_overwrites_witness :
    (ConfigFile.mk (some [])).Targets = some []
      ∧ (ConfigFile.mk (some [])).Create "test" "s3"
          = .ok ⟨some [("test", some [("type", "s3")])]⟩
      ∧ (ConfigFile.mk (some [("test", some [("type", "s3")])])).Create "test" "gcs"
          = .ok ⟨some [("test", some [("type", "s3")])]⟩ := by
  obtain ⟨created, hc, -, -, -, -, hidem⟩ :=
    create_adds_never_overwrites ⟨some []⟩ [] "test" "s3" rfl
  have hc2 : (ConfigFile.mk (some [])).Create "test" "s3"
      = .ok ⟨some [("test", some [("type", "s3")])]⟩ := rfl
  have heq : created = ⟨some [("test", some [("type", "s3")])]⟩ := by
    rw [hc2] at hc
    exact (Except.ok.inj hc).symm
  subst heq
  exact ⟨rfl, hc2, hidem "gcs"⟩

/-! ## C8: the dispatch ends in one call of a leaf function -/

mutual
theorem Tree.result_DispatchCall (t : Tree) (args : List String) :
    (Tree.DispatchCall t args).result = Tree.Dispatch t args := by
  match t with
  | .mk tFn none =>
    rw [Tree.DispatchCall, Tree.Dispatch]
    exact result_runCall tFn args
  | .mk tFn (some entries) =>
    rw [Tree.DispatchCall, Tree.Dispatch]
    split
    · cases index args (argsUntilSub tFn) with
      | error p => rfl
      | ok s =>
        simp only
        rw [← result_rangeSubCommandsCall entries s (argsUntilSub tFn).toNat args]
        cases rangeSubCommandsCall entries s (argsUntilSub tFn).toNat args with
        | none => exact result_runCall tFn args
        | some r => rfl
    · exact result_runCall tFn args
theorem result_rangeSubCommandsCall (entries : List (String × Value)) (s : String) (g : Nat)
    (args : List String) :
    (rangeSubCommandsCall entries s g args).map Resolution.result
      = rangeSubCommands entries s g args := by
  match entries with
  | [] => rw [rangeSubCommandsCall, rangeSubCommands]; rfl
  | (key, item) :: rest =>
    rw [rangeSubCommandsCall, rangeSubCommands]
    split
    · rw [Option.map_some', result_runCall item (splice args g)]
    · exact result_rangeSubCommandsCall rest s g args
theorem result_runCall (v : Value) (args : List String) :
    (runCall v args).result = run v args := by
  match v with
  | .tree t => rw [runCall, run]; exact Tree.result_DispatchCall t args
  | .fn cmd =>
    rw [runCall, run]
    simp only [minArgsCall, minArgs]
    split <;> rfl
  | .func cmd => rw [runCall, run]; rfl
  | .other dyn => rw [runCall, run]; rfl
end

mutual
theorem Tree.dispatchCall_leaf (t : Tree) (args : List String) (hv : t.Valid)
    (hg : t.GatesInRange) :
    ∃ f a, Tree.DispatchCall t args = .call f a ∧ f ∈ t.leaves := by
  match t with
  | .mk tFn none =>
    rw [Tree.Valid] at hv
    rw [Tree.GatesInRange] at hg
    rw [Tree.DispatchCall, Tree.leaves]
    exact runCall_leaf tFn args hv hg
  | .mk tFn (some entries) =>
    rw [Tree.Valid] at hv
    rw [Tree.GatesInRange] at hg
    rw [Tree.DispatchCall, Tree.leaves]
    have hown : ∃ f a, runCall tFn args = .call f a ∧ f ∈ tFn.leaves ++ entriesLeaves entries := by
      obtain ⟨f, a, h1, h2⟩ := runCall_leaf tFn args hv.1 hg.2.1
      exact ⟨f, a, h1, List.mem_append_left _ h2⟩
    split
    · rename_i hlen
      obtain ⟨g, hgate⟩ := Int.eq_ofNat_of_zero_le hg.1
      have hlen2 : g < args.length := by rw [hgate] at hlen; exact_mod_cast hlen
      rw [hgate, index_natCast (List.getElem?_eq_getElem hlen2)]
      simp only [Int.toNat_ofNat]
      cases hr : rangeSubCommandsCall entries args[g] g args with
      | none => exact hown
      | some r =>
        obtain ⟨f, a, h1, h2⟩ := rangeSubCommandsCall_leaf entries args[g] g args hv.2 hg.2.2 r hr
        exact ⟨f, a, h1, List.mem_append_right _ h2⟩
    · exact hown
theorem rangeSubCommandsCall_leaf (entries : List (String × Value)) (s : String) (g : Nat)
    (args : List String) (hv : entriesValid entries) (hg : entriesGatesInRange entries)
    (r : Resolution) (hr : rangeSubCommandsCall entries s g args = some r) :
    ∃ f a, r = .call f a ∧ f ∈ entriesLeaves entries := by
  match entries with
  | [] => rw [rangeSubCommandsCall] at hr; cases hr
  | (key, item) :: rest =>
    rw [entriesValid] at hv
    rw [entriesGatesInRange] at hg
    rw [rangeSubCommandsCall] at hr
    rw [entriesLeaves]
    split at hr
    · obtain ⟨f, a, h1, h2⟩ := runCall_leaf item (splice args g) hv.1 hg.1
      cases hr
      exact ⟨f, a, h1, List.mem_append_left _ h2⟩
    · obtain ⟨f, a, h1, h2⟩ := rangeSubCommandsCall_leaf rest s g args hv.2 hg.2 r hr
      exact ⟨f, a, h1, List.mem_append_right _ h2⟩
theorem runCall_leaf (v : Value) (args : List String) (hv : v.Valid) (hg : v.GatesInRange) :
    ∃ f a, runCall v args = .call f a ∧ f ∈ v.leaves := by
  match v with
  | .tree t =>
    rw [Value.Valid] at hv
    rw [Value.GatesInRange] at hg
    rw [runCall, Value.leaves]
    exact Tree.dispatchCall_leaf t args hv hg
  | .fn cmd =>
    rw [runCall, Value.leaves]
    simp only [minArgsCall]
    split
    · exact ⟨cmd.Help, args, rfl, by simp⟩
    · exact ⟨cmd.Fn, args, rfl, by simp⟩
  | .func cmd =>
    rw [runCall, Value.leaves]
    exact ⟨cmd, args, rfl, by simp⟩
  | .other dyn => rw [Value.Valid] at hv; exact hv.elim
end

/-- C8, as stated, fails where a gate is negative: in the tree whose own handler is an `Fn` with
`MinArgs = -2` and whose one subcommand is a plain function, every value is a plain function,
an `Fn` or a tree, yet `Dispatch [a]` panics on `args[-2]` and returns the result of no
function. -/
theorem dispatch_leaf_negative_gate :
    Tree.Valid (.mk (.fn ⟨osErrExist, -2, osErrClosed⟩) (some [("a", .func ioEOF)]))
      ∧ Tree.Dispatch (.mk (.fn ⟨osErrExist, -2, osErrClosed⟩) (some [("a", .func ioEOF)]))
          ["a"] = .error (.indexOutOfRange (-2) 1)
      ∧ ¬ ∃ (f : Handler) (a : List String),
          Tree.Dispatch (.mk (.fn ⟨osErrExist, -2, osErrClosed⟩) (some [("a", .func ioEOF)]))
            ["a"] = .ok (f a) := by
  refine ⟨?_, rfl, ?_⟩
  · simp [Tree.Valid, Value.Valid, entriesValid]
  · rintro ⟨f, a, h⟩
    cases h

/-- C8, amended. For a tree in which every own handler and every subcommand value, at any depth,
is a plain function, an `Fn` or a tree, and in which no node with a non-nil subcommand map has a
negative `MinArgs`, and for every list `args`: the dispatch ends in the call of one leaf
function `f` of the tree on one list `a`, no other call ends it, it is not the call of `Invalid`
and not a panic, and `Dispatch args` is exactly `f a`. -/
theorem dispatch_calls_leaf (t : Tree) (args : List String) (hv : t.Valid)
    (hg : t.GatesInRange) :
    ∃ f a, Tree.DispatchCall t args = .call f a
      ∧ f ∈ t.leaves
      ∧ Tree.Dispatch t args = .ok (f a)
      ∧ (∀ f2 a2, Tree.DispatchCall t args = .call f2 a2 → f2 = f ∧ a2 = a)
      ∧ (∀ b, Tree.DispatchCall t args ≠ .invalid b)
      ∧ (∀ p, Tree.DispatchCall t args ≠ .panic p) := by
  obtain ⟨f, a, hcall, hmem⟩ := Tree.dispatchCall_leaf t args hv hg
  refine ⟨f, a, hcall, hmem, ?_, ?_, ?_, ?_⟩
  · rw [← Tree.result_DispatchCall, hcall]
    rfl
  · intro f2 a2 h2
    rw [hcall] at h2
    cases h2
    exact ⟨rfl, rfl⟩
  · intro b hb
    rw [hcall] at hb
    cases hb
  · intro p hp
    rw [hcall] at hp
    cases hp

/-- C8 on the tree of the test without its invalid entry: `os closed !` ends in the call of the
`closed` handler on `[!]`. -/
theorem dispatch_calls_leaf_witness :
    validTree.Valid ∧ validTree.GatesInRange
      ∧ ∃ f a, Tree.DispatchCall validTree ["os", "closed", "!"] = .call f a
          ∧ f ∈ validTree.leaves
          ∧ Tree.Dispatch validTree ["os", "closed", "!"] = .ok (f a)
          ∧ f = osErrClosed ∧ a = ["!"] := by
  have hv : validTree.Valid := by
    simp [validTree, osTree, Tree.Valid, Value.Valid, entriesValid]
  have hg : validTree.GatesInRange := by
    simp [validTree, osTree, Tree.GatesInRange, Value.GatesInRange, entriesGatesInRange,
      argsUntilSub]
  obtain ⟨f, a, h1, h2, h3, h4, -⟩ := dispatch_calls_leaf validTree ["os", "closed", "!"] hv hg
  obtain ⟨h5, h6⟩ := h4 osErrClosed ["!"] rfl
  exact ⟨hv, hg, f, a, h1, h2, h3, h5.symm, h6.symm⟩

/-! ## C9: independence of the enumeration order -/

theorem rangeSubCommands_perm (l1 l2 : List (String × Value)) (s : String) (g : Nat)
    (args : List String) (hp : l1.Perm l2) (hnd : (keys l1).Nodup) :
    rangeSubCommands l1 s g args = rangeSubCommands l2 s g args := by
  have hkeys : (keys l1).Perm (keys l2) := hp.map Prod.fst
  by_cases hs : s ∈ keys l1
  · obtain ⟨e, he, hes⟩ := List.mem_map.mp hs
    obtain ⟨key, v⟩ := e
    simp only at hes
    subst hes
    rw [rangeSubCommands_of_mem l1 key v g args hnd he,
      rangeSubCommands_of_mem l2 key v g args (hkeys.nodup_iff.mp hnd) (hp.mem_iff.mp he)]
  · rw [rangeSubCommands_of_not_mem l1 s g args hs,
      rangeSubCommands_of_not_mem l2 s g args (fun h => hs (hkeys.mem_iff.mpr h))]

theorem keys_of_entriesReordered (l l2 : List (String × Value)) (h : entriesReordered l l2) :
    keys l2 = keys l := by
  induction l generalizing l2 with
  | nil =>
    rw [entriesReordered] at h
    rw [h]
  | cons e rest ih =>
    obtain ⟨key, item⟩ := e
    rw [entriesReordered] at h
    obtain ⟨item2, rest2, rfl, -, hrest⟩ := h
    simp only [keys, List.map_cons] at ih ⊢
    rw [ih rest2 hrest]

theorem argsUntilSub_of_reordered (f f2 : Value) (h : Value.Reordered f f2) :
    argsUntilSub f2 = argsUntilSub f := by
  cases f with
  | tree t =>
    rw [Value.Reordered] at h
    obtain ⟨u, rfl, -⟩ := h
    rfl
  | fn cmd => rw [Value.Reordered] at h; rw [h]
  | func cmd => rw [Value.Reordered] at h; rw [h]
  | other dyn => rw [Value.Reordered] at h; rw [h]

mutual
theorem Tree.dispatch_reordered (t u : Tree) (args : List String) (hu : t.UniqueKeys)
    (hr : Tree.Reordered t u) : Tree.Dispatch t args = Tree.Dispatch u args := by
  match t with
  | .mk f none =>
    rw [Tree.Reordered] at hr
    obtain ⟨f2, rfl, hf⟩ := hr
    rw [Tree.UniqueKeys] at hu
    rw [Tree.Dispatch, Tree.Dispatch]
    exact run_reordered f f2 args hu hf
  | .mk f (some entries) =>
    rw [Tree.Reordered] at hr
    obtain ⟨f2, entries2, entries3, rfl, hf, he, hp⟩ := hr
    rw [Tree.UniqueKeys] at hu
    have hown := run_reordered f f2 args hu.1 hf
    have hnd2 : (keys entries2).Nodup := by
      rw [keys_of_entriesReordered entries entries2 he]
      exact hu.2.1
    rw [Tree.Dispatch, Tree.Dispatch, argsUntilSub_of_reordered f f2 hf, ← hown]
    split
    · cases index args (argsUntilSub f) with
      | error p => rfl
      | ok s =>
        simp only
        rw [← rangeSubCommands_perm entries2 entries3 s _ args hp hnd2,
          ← rangeSubCommands_reordered entries entries2 s _ args hu.2.2 he]
    · rfl
theorem rangeSubCommands_reordered (l l2 : List (String × Value)) (s : String) (g : Nat)
    (args : List String) (hu : entriesUniqueKeys l) (hr : entriesReordered l l2) :
    rangeSubCommands l s g args = rangeSubCommands l2 s g args := by
  match l with
  | [] =>
    rw [entriesReordered] at hr
    rw [hr]
  | (key, item) :: rest =>
    rw [entriesReordered] at hr
    obtain ⟨item2, rest2, rfl, hitem, hrest⟩ := hr
    rw [entriesUniqueKeys] at hu
    rw [rangeSubCommands, rangeSubCommands, run_reordered item item2 (splice args g) hu.1 hitem,
      rangeSubCommands_reordered rest rest2 s g args hu.2 hrest]
theorem run_reordered (v w : Value) (args : List String) (hu : v.UniqueKeys)
    (hr : Value.Reordered v w) : run v args = run w args := by
  match v with
  | .tree t =>
    rw [Value.Reordered] at hr
    obtain ⟨u, rfl, ht⟩ := hr
    rw [Value.UniqueKeys] at hu
    rw [run, run]
    exact Tree.dispatch_reordered t u args hu ht
  | .fn cmd => rw [Value.Reordered] at hr; rw [hr]
  | .func cmd => rw [Value.Reordered] at hr; rw [hr]
  | .other dyn => rw [Value.Reordered] at hr; rw [hr]
end

/-- C9. For a tree whose subcommand maps have unique keys, and every argument list, the result of
`Dispatch` is the same for every order in which the entries of each subcommand map, at any depth,
are enumerated: at most one key equals the candidate token. `Dispatch` is a function of the tree
and the list, which it does not modify, so two calls with equal arguments give equal results. -/
theorem dispatch_order_independent (t u : Tree) (args : List String) (hu : t.UniqueKeys)
    (hr : Tree.Reordered t u) :
    Tree.Dispatch t args = Tree.Dispatch u args
      ∧ ∀ args2, args2 = args → Tree.Dispatch t args2 = Tree.Dispatch t args := by
  refine ⟨Tree.dispatch_reordered t u args hu hr, ?_⟩
  intro args2 h
  rw [h]

/-- C9 on the tree of the test and the same tree with both maps enumerated backwards. -/
theorem dispatch_order_independent_witness :
    testTree.UniqueKeys ∧ Tree.Reordered testTree testTreeReversed
      ∧ Tree.Dispatch testTree ["os", "closed", "!"]
          = Tree.Dispatch testTreeReversed ["os", "closed", "!"] := by
  have hu : testTree.UniqueKeys := by
    simp [testTree, osTree, Tree.UniqueKeys, Value.UniqueKeys, entriesUniqueKeys]
  have hr : Tree.Reordered testTree testTreeReversed := by
    rw [testTree, testTreeReversed, Tree.Reordered]
    refine ⟨_, [("os", .tree (.mk (.func osErrNotExist)
        (some [("closed", .func osErrClosed), ("exist", .func osErrExist)]))),
      ("http", .func httpErrContentLength), ("io", .func ioEOF), ("bad", .other "citizen")],
      _, rfl, ?_, ?_, ?_⟩
    · rw [Value.Reordered]
    · simp only [entriesReordered, Value.Reordered, osTree, Tree.Reordered]
      refine ⟨_, _, rfl, ⟨_, rfl, _, [("exist", .func osErrExist), ("closed", .func osErrClosed)],
        _, rfl, rfl, ⟨_, _, rfl, rfl, _, _, rfl, rfl, rfl⟩, ?_⟩, _, _, rfl, rfl, _, _, rfl, rfl,
        _, _, rfl, rfl, rfl⟩
      exact List.Perm.swap _ _ _
    · exact (List.reverse_perm _).symm
  exact ⟨hu, hr, (dispatch_order_independent testTree testTreeReversed _ hu hr).1⟩

/-! ## C11, C12: `ConfigFile.Target` -/

/-- C11. `Target name` returns the stored target with a nil error if and only if `name` is a key
of `Targets`; otherwise it returns a nil target and the error `<name> target not found`. In both
cases the configuration is left as it was. -/
theorem target_fails_iff_missing (config : ConfigFile) (name : String) :
    (config.Target name).1 = config
      ∧ (∀ target, mapGet config.Targets name = some target →
          (config.Target name).2 = (some target, none))
      ∧ (mapGet config.Targets name = none →
          (config.Target name).2 = (none, some (name ++ " target not found")))
      ∧ ((∃ target, (config.Target name).2 = (some target, none))
          ↔ (mapGet config.Targets name).isSome = true) := by
  cases hget : mapGet config.Targets name with
  | none => simp [ConfigFile.Target, hget]
  | some target => simp [ConfigFile.Target, hget]

/-- C11 on the two cases of `TestConfigFile_Target`. -/
theorem target_fails_iff_missing_witness :
    mapGet (ConfigFile.mk (some [("test", some [])])).Targets "test" = some (some [])
      ∧ ((ConfigFile.mk (some [("test", some [])])).Target "test").2 = (some (some []), none)
      ∧ mapGet (ConfigFile.mk (some [])).Targets "test" = none
      ∧ ((ConfigFile.mk (some [])).Target "test").2 = (none, some "test target not found") :=
  ⟨rfl, (target_fails_iff_missing ⟨some [("test", some [])]⟩ "test").2.1 _ rfl, rfl,
    (target_fails_iff_missing ⟨some []⟩ "test").2.2.1 rfl⟩

/-- C12, as stated, fails: for a configuration with an empty `Targets` map, `Target "test"`
returns a nil target and an error, not a target without error, and `test` is no key of `Targets`
afterwards. -/
theorem target_does_not_create :
    mapGet (ConfigFile.mk (some [])).Targets "test" = none
      ∧ ((ConfigFile.mk (some [])).Target "test").2 = (none, some "test target not found")
      ∧ (¬ ∃ target, ((ConfigFile.mk (some [])).Target "test").2 = (some target, none))
      ∧ mapGet ((ConfigFile.mk (some [])).Target "test").1.Targets "test" = none := by
  refine ⟨rfl, rfl, ?_, rfl⟩
  rintro ⟨target, h⟩
  cases h

/-- C12, amended. `Target` finds the requested target and never creates one: for a name that is
no key of `Targets` it returns a nil target and the error `<name> target not found`, and
afterwards the configuration is what it was, so the name is still no key. -/
theorem target_reports_missing (config : ConfigFile) (name : String)
    (h : mapGet config.Targets name = none) :
    (config.Target name).2 = (none, some (name ++ " target not found"))
      ∧ (config.Target name).1 = config
      ∧ mapGet (config.Target name).1.Targets name = none := by
  simp [ConfigFile.Target, h]

/-- C12, amended, on the configuration with the one target `nope`: `Target "test"` reports the
missing target and leaves the configuration as it was. -/
theorem target_reports_missing_witness :
    mapGet (ConfigFile.mk (some [("nope", some [])])).Targets "test" = none
      ∧ ((ConfigFile.mk (some [("nope", some [])])).Target "test").2
          = (none, some "test target not found")
      ∧ ((ConfigFile.mk (some [("nope", some [])])).Target "test").1
          = ⟨some [("nope", some [])]⟩ :=
  ⟨rfl, (target_reports_missing ⟨some [("nope", some [])]⟩ "test" rfl).1,
    (target_reports_missing ⟨some [("nope", some [])]⟩ "test" rfl).2.1⟩

/-! ## C13: `ConfigFile.Delete` -/

theorem lookupKey_mapDelete_self {V : Type} (k : String) (entries : List (String × V)) :
    lookupKey k (mapDelete k entries) = none := by
  induction entries with
  | nil => rfl
  | cons e rest ih =>
    obtain ⟨key, v⟩ := e
    by_cases h : k = key
    · simp [mapDelete, h] at ih ⊢
      exact ih
    · simp [mapDelete, lookupKey, h, ih]

theorem lookupKey_mapDelete_of_ne {V : Type} (k : String) (entries : List (String × V))
    (j : String) (hj : j ≠ k) :
    lookupKey j (mapDelete k entries) = lookupKey j entries := by
  induction entries with
  | nil => rfl
  | cons e rest ih =>
    obtain ⟨key, v⟩ := e
    by_cases h : k = key
    · subst h
      simp [mapDelete, lookupKey, hj, ih]
    · by_cases h2 : j = key
      · simp [mapDelete, lookupKey, h, h2]
      · simp [mapDelete, lookupKey, h, h2, ih]

theorem mapDelete_of_lookupKey_none {V : Type} (k : String) (entries : List (String × V))
    (h : lookupKey k entries = none) : mapDelete k entries = entries := by
  induction entries with
  | nil => rfl
  | cons e rest ih =>
    obtain ⟨key, v⟩ := e
    by_cases hk : k = key
    · simp [lookupKey, hk] at h
    · simp only [lookupKey, if_neg hk] at h
      simp [mapDelete, hk, ih h]

theorem mapGet_delete_self {V : Type} (k : String) (m : Option (List (String × V))) :
    mapGet (m.map (mapDelete k)) k = none := by
  cases m with
  | none => rfl
  | some entries => exact lookupKey_mapDelete_self k entries

theorem mapGet_delete_of_ne {V : Type} (k : String) (m : Option (List (String × V)))
    (j : String) (hj : j ≠ k) : mapGet (m.map (mapDelete k)) j = mapGet m j := by
  cases m with
  | none => rfl
  | some entries => exact lookupKey_mapDelete_of_ne k entries j hj

theorem delete_of_mapGet_none {V : Type} (k : String) (m : Option (List (String × V)))
    (h : mapGet m k = none) : m.map (mapDelete k) = m := by
  cases m with
  | none => rfl
  | some entries =>
    simp only [Option.map_some']
    rw [mapDelete_of_lookupKey_none k entries h]

/-- C13. After `Delete name` the name is no key of `Targets` and every other name maps to what
it mapped to before; deleting a name that was not present leaves the configuration unchanged,
also when `Targets` is nil, so `Delete` is idempotent. -/
theorem delete_removes_exactly (config : ConfigFile) (name : String) :
    mapGet (config.Delete name).Targets name = none
      ∧ (∀ other, other ≠ name →
          mapGet (config.Delete name).Targets other = mapGet config.Targets other)
      ∧ (mapGet config.Targets name = none → config.Delete name = config)
      ∧ (config.Delete name).Delete name = config.Delete name := by
  have h1 : mapGet (config.Delete name).Targets name = none :=
    mapGet_delete_self name config.Targets
  have h3 : ∀ c : ConfigFile, mapGet c.Targets name = none → c.Delete name = c := by
    intro c h
    obtain ⟨targets⟩ := c
    simp only [ConfigFile.Delete]
    rw [delete_of_mapGet_none name targets h]
  exact ⟨h1, fun other hne => mapGet_delete_of_ne name config.Targets other hne, h3 config,
    h3 _ h1⟩

/-! ## C14: `ConfigTarget.Set` and `ConfigTarget.Get` -/

theorem length_mapSet {V : Type} (k : String) (v : V) (entries : List (String × V)) :
    (mapSet k v entries).length
      = if (lookupKey k entries).isSome then entries.length else entries.length + 1 := by
  induction entries with
  | nil => simp [mapSet, lookupKey]
  | cons e rest ih =>
    obtain ⟨key, w⟩ := e
    by_cases h : k = key
    · simp [mapSet, lookupKey, h]
    · simp only [mapSet, lookupKey, if_neg h, List.length_cons, ih]
      split <;> rfl

/-- C14. For a non-nil target, `Set key value` returns, `Get key` afterwards is `value`, `Get` of
every other key is what it was before, and the number of entries grows by one exactly when `key`
was absent (from zero to one on an empty target). `Get` of an absent key is the empty string. -/
theorem set_get_roundtrip (target : ConfigTarget) (entries : List (String × String))
    (key value : String) (h : target = some entries) :
    ∃ updated, ConfigTarget.Set target key value = .ok updated
      ∧ ConfigTarget.Get updated key = value
      ∧ (∀ other, other ≠ key → ConfigTarget.Get updated other = ConfigTarget.Get target other)
      ∧ (mapGet target key = none → mapLen updated = mapLen target + 1)
      ∧ (mapGet target key ≠ none → mapLen updated = mapLen target)
      ∧ (entries = [] → mapLen updated = 1)
      ∧ (mapGet target key = none → ConfigTarget.Get target key = "") := by
  subst h
  refine ⟨some (mapSet key value entries), rfl, ?_, ?_, ?_, ?_, ?_, ?_⟩
  · simp only [ConfigTarget.Get, mapGet_mapSet_self]
  · intro other hne
    simp only [ConfigTarget.Get, mapGet_mapSet_of_ne key value entries other hne]
  · intro hnone
    simp only [mapGet] at hnone
    simp [mapLen, length_mapSet, hnone]
  · intro hsome
    simp only [mapGet] at hsome
    have hs : (lookupKey key entries).isSome = true := by
      cases hl : lookupKey key entries with
      | none => exact absurd hl hsome
      | some w => rfl
    simp [mapLen, length_mapSet, hs]
  · intro hnil
    subst hnil
    rfl
  · intro hnone
    simp only [ConfigTarget.Get, hnone]

/-- C14 on `TestTarget_Set` and `TestTarget_Get`: `Set` on the empty target leaves one entry,
and `Get` returns the value stored. -/
theorem set_get_roundtrip_witness :
    (some [] : ConfigTarget) = some []
      ∧ ConfigTarget.Set (some []) "key" "value" = .ok (some [("key", "value")])
      ∧ mapLen (some [("key", "value")] : ConfigTarget) = 1
      ∧ ConfigTarget.Get (some [("key", "value")]) "key" = "value" := by
  obtain ⟨updated, hset, hget, -, -, -, hlen, -⟩ :=
    set_get_roundtrip (some []) [] "key" "value" rfl
  have hset2 : ConfigTarget.Set (some []) "key" "value" = .ok (some [("key", "value")]) := rfl
  have heq : updated = some [("key", "value")] := by
    rw [hset2] at hset
    exact (Except.ok.inj hset).symm
  subst heq
  exact ⟨rfl, hset2, hlen rfl, hget⟩

/-! ## C15: `ConfigTarget.Delete` -/

/-- C15. After `Delete key` the key is absent, so `Get key` is the empty string, and every other
key keeps its value; deleting an absent key changes nothing, also on the nil target. -/
theorem target_delete_removes_exactly (target : ConfigTarget) (key : String) :
    mapGet (ConfigTarget.Delete target key) key = none
      ∧ ConfigTarget.Get (ConfigTarget.Delete target key) key = ""
      ∧ (∀ other, other ≠ key →
          ConfigTarget.Get (ConfigTarget.Delete target key) other = ConfigTarget.Get target other)
      ∧ (mapGet target key = none → ConfigTarget.Delete target key = target) := by
  have h1 : mapGet (ConfigTarget.Delete target key) key = none := mapGet_delete_self key target
  refine ⟨h1, ?_, ?_, ?_⟩
  · simp only [ConfigTarget.Get, h1]
  · intro other hne
    have h2 : mapGet (ConfigTarget.Delete target key) other = mapGet target other :=
      mapGet_delete_of_ne key target other hne
    simp only [ConfigTarget.Get, h2]
  · intro hnone
    exact delete_of_mapGet_none key target hnone

/-- C15 on `TestTarget_Delete`: deleting `key` from the target with the one entry `key: value`
leaves the empty target. -/
theorem target_delete_removes_exactly_witness :
    ConfigTarget.Delete (some [("key", "value")]) "key" = some []
      ∧ mapGet (ConfigTarget.Delete (some [("key", "value")]) "key") "key" = none :=
  ⟨rfl, (target_delete_removes_exactly (some [("key", "value")]) "key").1⟩

/-- C13 on the two cases of `TestConfigFile_Delete`. -/
theorem delete_removes_exactly_witness :
    (ConfigFile.mk (some [("test", some [])])).Delete "test" = ⟨some []⟩
      ∧ mapGet (ConfigFile.mk (some [("nope", some [])])).Targets "test" = none
      ∧ (ConfigFile.mk (some [("nope", some [])])).Delete "test" = ⟨some [("nope", some [])]⟩ :=
  ⟨rfl, rfl, (delete_removes_exactly ⟨some [("nope", some [])]⟩ "test").2.2.1 rfl⟩

/-! ## C16: no index or slice expression is out of range -/

theorem spliceChecked_natCast (args : List String) (g : Nat) (h : g < args.length) :
    spliceChecked args (g : Int) = .ok (splice args g) := by
  have h1 : (0 : Int) ≤ 0 ∧ (0 : Int) ≤ (g : Int) ∧ (g : Int) ≤ (args.length : Int) := by omega
  have h2 : (0 : Int) ≤ (g : Int) + 1 ∧ (g : Int) + 1 ≤ (args.length : Int)
      ∧ (args.length : Int) ≤ (args.length : Int) := by omega
  have h3 : ((g : Int) + 1).toNat = g + 1 := by omega
  simp only [spliceChecked, slice, if_pos h1, if_pos h2, splice, Int.toNat_zero, List.drop_zero,
    Int.toNat_ofNat, List.take_length, h3]

mutual
theorem Tree.dispatchChecked_eq (t : Tree) (args : List String) :
    Tree.DispatchChecked t args = Tree.Dispatch t args := by
  match t with
  | .mk tFn none =>
    rw [Tree.DispatchChecked, Tree.Dispatch]
    exact runChecked_eq tFn args
  | .mk tFn (some entries) =>
    rw [Tree.DispatchChecked, Tree.Dispatch]
    split
    · rename_i hlen
      by_cases h0 : 0 ≤ argsUntilSub tFn
      · obtain ⟨g, hg⟩ := Int.eq_ofNat_of_zero_le h0
        have hlen2 : g < args.length := by rw [hg] at hlen; exact_mod_cast hlen
        rw [hg, index_natCast (List.getElem?_eq_getElem hlen2)]
        simp only [Int.toNat_ofNat]
        rw [rangeSubCommandsChecked_eq entries args[g] g args hlen2, runChecked_eq tFn args]
      · rw [index_neg (Int.not_le.mp h0)]
    · exact runChecked_eq tFn args
theorem rangeSubCommandsChecked_eq (entries : List (String × Value)) (s : String) (g : Nat)
    (args : List String) (h : g < args.length) :
    rangeSubCommandsChecked entries s (g : Int) args = rangeSubCommands entries s g args := by
  match entries with
  | [] => rw [rangeSubCommandsChecked, rangeSubCommands]
  | (key, item) :: rest =>
    rw [rangeSubCommandsChecked, rangeSubCommands, spliceChecked_natCast args g h,
      rangeSubCommandsChecked_eq rest s g args h]
    simp only
    rw [runChecked_eq item (splice args g)]
theorem runChecked_eq (v : Value) (args : List String) : runChecked v args = run v args := by
  match v with
  | .tree t => rw [runChecked, run]; exact Tree.dispatchChecked_eq t args
  | .fn cmd => rw [runChecked, run]
  | .func cmd => rw [runChecked, run]
  | .other dyn => rw [runChecked, run]
end

mutual
theorem Tree.gatesInRange_of_nonneg (t : Tree) (h : t.NonnegGates) : t.GatesInRange := by
  match t with
  | .mk f none =>
    rw [Tree.NonnegGates] at h
    rw [Tree.GatesInRange]
    exact value_gatesInRange_of_nonneg f h
  | .mk f (some entries) =>
    rw [Tree.NonnegGates] at h
    rw [Tree.GatesInRange]
    refine ⟨?_, value_gatesInRange_of_nonneg f h.1, entriesGatesInRange_of_nonneg entries h.2⟩
    cases f with
    | fn cmd => rw [Value.NonnegGates] at h; exact h.1
    | tree t => simp [argsUntilSub]
    | func cmd => simp [argsUntilSub]
    | other dyn => simp [argsUntilSub]
theorem entriesGatesInRange_of_nonneg (entries : List (String × Value))
    (h : entriesNonnegGates entries) : entriesGatesInRange entries := by
  match entries with
  | [] => rw [entriesGatesInRange]; trivial
  | (key, item) :: rest =>
    rw [entriesNonnegGates] at h
    rw [entriesGatesInRange]
    exact ⟨value_gatesInRange_of_nonneg item h.1, entriesGatesInRange_of_nonneg rest h.2⟩
theorem value_gatesInRange_of_nonneg (v : Value) (h : v.NonnegGates) : v.GatesInRange := by
  match v with
  | .tree t =>
    rw [Value.NonnegGates] at h
    rw [Value.GatesInRange]
    exact Tree.gatesInRange_of_nonneg t h
  | .fn cmd => simp [Value.GatesInRange]
  | .func cmd => simp [Value.GatesInRange]
  | .other dyn => simp [Value.GatesInRange]
end

mutual
theorem Tree.dispatch_returns (t : Tree) (args : List String) (hg : t.GatesInRange) :
    ∃ e, Tree.Dispatch t args = .ok e := by
  match t with
  | .mk tFn none =>
    rw [Tree.GatesInRange] at hg
    rw [Tree.Dispatch]
    exact run_returns tFn args hg
  | .mk tFn (some entries) =>
    rw [Tree.GatesInRange] at hg
    rw [Tree.Dispatch]
    split
    · rename_i hlen
      obtain ⟨g, hgate⟩ := Int.eq_ofNat_of_zero_le hg.1
      have hlen2 : g < args.length := by rw [hgate] at hlen; exact_mod_cast hlen
      rw [hgate, index_natCast (List.getElem?_eq_getElem hlen2)]
      simp only [Int.toNat_ofNat]
      cases hr : rangeSubCommands entries args[g] g args with
      | none => exact run_returns tFn args hg.2.1
      | some r => exact rangeSubCommands_returns entries args[g] g args hg.2.2 r hr
    · exact run_returns tFn args hg.2.1
theorem rangeSubCommands_returns (entries : List (String × Value)) (s : String) (g : Nat)
    (args : List String) (hg : entriesGatesInRange entries) (r : Except Panic GoError)
    (hr : rangeSubCommands entries s g args = some r) : ∃ e, r = .ok e := by
  match entries with
  | [] => rw [rangeSubCommands] at hr; cases hr
  | (key, item) :: rest =>
    rw [entriesGatesInRange] at hg
    rw [rangeSubCommands] at hr
    split at hr
    · cases hr
      exact run_returns item (splice args g) hg.1
    · exact rangeSubCommands_returns rest s g args hg.2 r hr
theorem run_returns (v : Value) (args : List String) (hg : v.GatesInRange) :
    ∃ e, run v args = .ok e := by
  match v with
  | .tree t =>
    rw [Value.GatesInRange] at hg
    rw [run]
    exact Tree.dispatch_returns t args hg
  | .fn cmd => rw [run]; exact ⟨_, rfl⟩
  | .func cmd => rw [run]; exact ⟨_, rfl⟩
  | .other dyn => rw [run]; exact ⟨_, rfl⟩
end

/-- C16. For a tree in which every `Fn` has `MinArgs ≥ 0` and for every argument list, the empty
one included, `Dispatch` with the index expression `args[gate]` and the slice expressions
`args[0:gate]` and `args[gate+1:]` all bounds-checked returns a result at every level of the
recursion: no out-of-range branch is taken. It is the result of the embedding `Tree.Dispatch`. -/
theorem dispatch_in_bounds (t : Tree) (args : List String) (h : t.NonnegGates) :
    ∃ e, Tree.DispatchChecked t args = .ok e ∧ Tree.Dispatch t args = .ok e := by
  obtain ⟨e, he⟩ := Tree.dispatch_returns t args (Tree.gatesInRange_of_nonneg t h)
  exact ⟨e, by rw [Tree.dispatchChecked_eq, he], he⟩

/-- C16 on the tree with `MinArgs = 1`: the empty list, a list as long as the gate and a longer
one all return. -/
theorem dispatch_in_bounds_witness :
    gatedTree.NonnegGates
      ∧ (∃ e, Tree.DispatchChecked gatedTree [] = .ok e ∧ Tree.Dispatch gatedTree [] = .ok e)
      ∧ Tree.DispatchChecked gatedTree [] = .ok (osErrClosed [])
      ∧ Tree.DispatchChecked gatedTree ["pre"] = .ok (ioEOF ["pre"])
      ∧ Tree.DispatchChecked gatedTree ["pre", "sub", "rest"]
          = .ok (osErrExist ["pre", "rest"]) := by
  have h : gatedTree.NonnegGates := by
    simp [gatedTree, Tree.NonnegGates, Value.NonnegGates, entriesNonnegGates]
  exact ⟨h, dispatch_in_bounds gatedTree [] h, rfl, rfl, rfl⟩

/-! ## C17: termination -/

theorem rangeSubCommandsFuel_eq (runItem : Value → List String → Option (Except Panic GoError))
    (entries : List (String × Value)) (s : String) (g : Nat) (args : List String)
    (h : ∀ e ∈ entries, ∀ a, runItem e.2 a = some (run e.2 a)) :
    rangeSubCommandsFuel runItem entries s g args
      = (rangeSubCommands entries s g args).map some := by
  induction entries with
  | nil => rw [rangeSubCommandsFuel, rangeSubCommands]; rfl
  | cons e rest ih =>
    obtain ⟨key, item⟩ := e
    rw [rangeSubCommandsFuel, rangeSubCommands]
    split
    · rw [h (key, item) (List.mem_cons_self _ _)]
      rfl
    · exact ih (fun e he => h e (List.mem_cons_of_mem _ he))

theorem height_le_entriesHeight (entries : List (String × Value)) (e : String × Value)
    (he : e ∈ entries) : Value.height e.2 ≤ entriesHeight entries := by
  induction entries with
  | nil => cases he
  | cons d rest ih =>
    obtain ⟨key, item⟩ := d
    rw [entriesHeight]
    rcases List.mem_cons.mp he with rfl | hmem
    · exact Nat.le_max_left _ _
    · exact Nat.le_trans (ih hmem) (Nat.le_max_right _ _)

mutual
theorem Tree.dispatchFuel_eq (t : Tree) (fuel : Nat) (args : List String)
    (h : Tree.height t ≤ fuel) : Tree.DispatchFuel fuel t args = some (Tree.Dispatch t args) := by
  match t, fuel with
  | .mk tFn none, 0 => rw [Tree.height] at h; omega
  | .mk tFn none, fuel + 1 =>
    rw [Tree.height] at h
    rw [Tree.DispatchFuel, Tree.Dispatch]
    simp only [Tree.SubCommands, Option.isSome_none, Bool.false_eq_true, and_false, if_false,
      Tree.Fn]
    exact runFuel_eq tFn fuel args (by omega)
  | .mk tFn (some entries), 0 => rw [Tree.height] at h; omega
  | .mk tFn (some entries), fuel + 1 =>
    rw [Tree.height] at h
    have hown : runFuel fuel tFn args = some (run tFn args) :=
      runFuel_eq tFn fuel args (by omega)
    have hitems : ∀ e ∈ entries, ∀ a, runFuel fuel e.2 a = some (run e.2 a) :=
      entries_runFuel_eq entries fuel (by omega)
    rw [Tree.DispatchFuel, Tree.Dispatch]
    simp only [Tree.SubCommands, Option.isSome_some, and_true, Tree.Fn, Option.getD_some]
    split
    · cases index args (argsUntilSub tFn) with
      | error p => rfl
      | ok s =>
        simp only
        rw [rangeSubCommandsFuel_eq (runFuel fuel) entries s _ args hitems]
        cases rangeSubCommands entries s (argsUntilSub tFn).toNat args with
        | none => exact hown
        | some r => rfl
    · exact hown
theorem entries_runFuel_eq (entries : List (String × Value)) (fuel : Nat)
    (h : entriesHeight entries ≤ fuel) :
    ∀ e ∈ entries, ∀ a, runFuel fuel e.2 a = some (run e.2 a) := by
  match entries with
  | [] => intro e he; cases he
  | (key, item) :: rest =>
    rw [entriesHeight] at h
    intro e he a
    rcases List.mem_cons.mp he with rfl | hmem
    · exact runFuel_eq item fuel a (by omega)
    · exact entries_runFuel_eq rest fuel (by omega) e hmem a
theorem runFuel_eq (v : Value) (fuel : Nat) (args : List String) (h : Value.height v ≤ fuel) :
    runFuel fuel v args = some (run v args) := by
  match v, fuel with
  | .tree t, 0 => rw [Value.height] at h; omega
  | .tree t, fuel + 1 =>
    rw [Value.height] at h
    rw [runFuel, run]
    exact Tree.dispatchFuel_eq t fuel args (by omega)
  | .fn cmd, 0 => simp [Value.height] at h
  | .fn cmd, fuel + 1 => rw [runFuel, run]
  | .func cmd, 0 => simp [Value.height] at h
  | .func cmd, fuel + 1 => rw [runFuel, run]
  | .other dyn, 0 => simp [Value.height] at h
  | .other dyn, fuel + 1 => rw [runFuel, run]
end

/-- C17. `Dispatch` terminates on every tree and every argument list, at any nesting depth: with
a depth of calls of at least the height of the tree, the depth-bounded recursion returns, and
what it returns is the result of `Tree.Dispatch`. Every recursive call is made on the own
handler or on a subcommand value, whose height is smaller, and a call through a subcommand is
made on a list one element shorter. -/
theorem dispatch_terminates (t : Tree) (args : List String) (extra : Nat) :
    Tree.DispatchFuel (Tree.height t + extra) t args = some (Tree.Dispatch t args)
      ∧ Value.height t.Fn < Tree.height t
      ∧ (∀ entries, t.SubCommands = some entries →
          ∀ e ∈ entries, Value.height e.2 < Tree.height t)
      ∧ (∀ g, g < args.length → (splice args g).length + 1 = args.length) := by
  refine ⟨Tree.dispatchFuel_eq t _ args (Nat.le_add_right _ _), ?_, ?_, ?_⟩
  · obtain ⟨f, m⟩ := t
    cases m with
    | none => simp [Tree.height, Tree.Fn]
    | some entries =>
      simp only [Tree.height, Tree.Fn]
      have := Nat.le_max_left (Value.height f) (entriesHeight entries)
      omega
  · intro entries hsub e he
    obtain ⟨f, m⟩ := t
    simp only [Tree.SubCommands] at hsub
    subst hsub
    simp only [Tree.height]
    have h1 := height_le_entriesHeight entries e he
    have h2 := Nat.le_max_right (Value.height f) (entriesHeight entries)
    omega
  · intro g hg
    simp only [splice, List.length_append, List.length_take, List.length_drop]
    omega

/-- C17 on the tree of the test, whose height is 4: four nested calls are enough for every
argument list, and three are not enough for `os exist`. -/
theorem dispatch_terminates_witness :
    Tree.height testTree = 4
      ∧ Tree.DispatchFuel (Tree.height testTree + 0) testTree ["os", "exist", "foo"]
          = some (.ok (osErrExist ["foo"]))
      ∧ Tree.DispatchFuel 3 testTree ["os", "exist", "foo"] = none :=
  ⟨rfl, (dispatch_terminates testTree ["os", "exist", "foo"] 0).1, rfl⟩

/-! ## C18, C19: the backing array and the list handed to the final call -/

theorem take_spliceArray (array : List String) (len g : Nat) (hg : g < len)
    (hlen : len ≤ array.length) :
    (spliceArray array len g).take (len - 1) = splice (array.take len) g := by
  have hlen1 : (array.take g ++ (array.take len).drop (g + 1)).length = len - 1 := by
    simp only [List.length_append, List.length_take, List.length_drop]
    omega
  rw [spliceArray, List.take_left' hlen1, splice, List.take_take, Nat.min_eq_left (by omega)]

theorem length_spliceArray (array : List String) (len g : Nat) (hg : g < len)
    (hlen : len ≤ array.length) : (spliceArray array len g).length = array.length := by
  simp only [spliceArray, List.length_append, List.length_take, List.length_drop]
  omega

theorem splice_sublist (w : List String) (g : Nat) : (splice w g).Sublist w := by
  have h : (w.take g ++ w.drop (g + 1)).Sublist (w.take g ++ w.drop g) :=
    List.Sublist.append (List.Sublist.refl _)
      (List.drop_sublist_drop_left w (Nat.le_succ g))
  rw [List.take_append_drop] at h
  exact h

theorem splice_perm (w : List String) (g : Nat) (s : String) (hs : w[g]? = some s) :
    w.Perm (splice w g ++ [s]) := by
  have hlen : g < w.length := by
    rcases Nat.lt_or_ge g w.length with h | h
    · exact h
    · rw [List.getElem?_eq_none h] at hs; cases hs
  have hget : w[g] = s := by
    rw [List.getElem?_eq_getElem hlen] at hs
    exact Option.some.inj hs
  have hw : w = w.take g ++ s :: w.drop (g + 1) := by
    conv_lhs => rw [← List.take_append_drop g w]
    rw [List.drop_eq_getElem_cons hlen, hget]
  conv_lhs => rw [hw]
  rw [splice, List.append_assoc]
  exact List.Perm.append_left _ (List.perm_append_singleton s _).symm

theorem length_splice (w : List String) (g : Nat) (hg : g < w.length) :
    (splice w g).length + 1 = w.length := by
  simp only [splice, List.length_append, List.length_take, List.length_drop]
  omega

theorem Settles.mono {r : Resolution} {final : Final} {args ks ks2 : List String}
    (h : Settles r final args ks) (hk : ∀ s ∈ ks, s ∈ ks2) : Settles r final args ks2 := by
  obtain ⟨a, h1, h2, h3, h4, h5, h6⟩ := h
  exact ⟨a, h1, h2, h3, h4, h5, fun s hs => hk s (h6 s hs)⟩

theorem settles_leaf (r : Resolution) (array : List String) (len : Nat)
    (hr : r.passes (array.take len)) :
    Settles r ⟨array, len, []⟩ (array.take len) [] := by
  refine ⟨array.take len, hr, rfl, ?_, List.Sublist.refl _, ?_, ?_⟩
  · simp
  · simp
  · intro s hs
    cases hs

theorem settles_descend (r : Resolution) (after : Final) (array : List String) (len g : Nat)
    (s : String) (ks : List String) (hlen : len ≤ array.length)
    (hs : (array.take len)[g]? = some s)
    (h : Settles r after ((spliceArray array len g).take (len - 1)) ks) :
    Settles r (Final.descend s after) (array.take len) (s :: ks) := by
  have hg : g < (array.take len).length := by
    rcases Nat.lt_or_ge g (array.take len).length with h | h
    · exact h
    · rw [List.getElem?_eq_none h] at hs; cases hs
  have hg2 : g < len := by
    rw [List.length_take] at hg
    omega
  rw [take_spliceArray array len g hg2 hlen] at h
  obtain ⟨a, h1, h2, h3, h4, h5, h6⟩ := h
  have hl := length_splice (array.take len) g hg
  refine ⟨a, h1, h2, ?_, h4.trans (splice_sublist _ g), ?_, ?_⟩
  · simp only [Final.descend, List.length_cons]
    omega
  · simp only [Final.descend]
    refine (splice_perm (array.take len) g s hs).trans ?_
    refine (List.Perm.append_right [s] h5).trans ?_
    rw [List.append_assoc]
    exact List.Perm.append_left a (List.perm_append_singleton s after.removed)
  · intro t ht
    simp only [Final.descend, List.mem_cons] at ht
    rcases ht with rfl | ht
    · exact List.mem_cons_self _ _
    · exact List.mem_cons_of_mem _ (h6 t ht)

mutual
theorem Tree.dispatchFinal_settles (t : Tree) (array : List String) (len : Nat)
    (hlen : len ≤ array.length) (hg : t.GatesInRange) :
    Settles (Tree.DispatchCall t (array.take len)) (Tree.DispatchFinal t array len)
      (array.take len) (Tree.allKeys t) := by
  match t with
  | .mk tFn none =>
    rw [Tree.GatesInRange] at hg
    rw [Tree.DispatchCall, Tree.DispatchFinal, Tree.allKeys]
    exact runFinal_settles tFn array len hlen hg
  | .mk tFn (some entries) =>
    rw [Tree.GatesInRange] at hg
    have hown : Settles (runCall tFn (array.take len)) (runFinal tFn array len)
        (array.take len) (Value.allKeys tFn ++ (keys entries ++ entriesAllKeys entries)) :=
      (runFinal_settles tFn array len hlen hg.2.1).mono
        (fun s hs => List.mem_append_left _ hs)
    have hwl : (array.take len).length = len := by
      rw [List.length_take]
      omega
    rw [Tree.DispatchCall, Tree.DispatchFinal, Tree.allKeys, hwl]
    split
    · rename_i hlt
      obtain ⟨g, hgate⟩ := Int.eq_ofNat_of_zero_le hg.1
      have hlt2 : g < (array.take len).length := by
        rw [hwl]
        rw [hgate] at hlt
        exact_mod_cast hlt
      have hget : (array.take len)[g]? = some (array.take len)[g] :=
        List.getElem?_eq_getElem hlt2
      rw [hgate, index_natCast hget]
      simp only [Int.toNat_ofNat]
      rcases rangeSubCommandsFinal_settles entries (array.take len)[g] g array len hlen hget
        hg.2.2 with ⟨h1, h2⟩ | ⟨r, final, h1, h2, h3⟩
      · rw [h1, h2]
        exact hown
      · rw [h1, h2]
        exact h3.mono (fun s hs => List.mem_append_right _ hs)
    · exact hown
theorem rangeSubCommandsFinal_settles (entries : List (String × Value)) (s : String) (g : Nat)
    (array : List String) (len : Nat) (hlen : len ≤ array.length)
    (hs : (array.take len)[g]? = some s) (hg : entriesGatesInRange entries) :
    (rangeSubCommandsCall entries s g (array.take len) = none
        ∧ rangeSubCommandsFinal entries s g array len = none)
      ∨ ∃ r final, rangeSubCommandsCall entries s g (array.take len) = some r
          ∧ rangeSubCommandsFinal entries s g array len = some final
          ∧ Settles r final (array.take len) (keys entries ++ entriesAllKeys entries) := by
  match entries with
  | [] =>
    left
    rw [rangeSubCommandsCall, rangeSubCommandsFinal]
    exact ⟨rfl, rfl⟩
  | (key, item) :: rest =>
    rw [entriesGatesInRange] at hg
    rw [rangeSubCommandsCall, rangeSubCommandsFinal, entriesAllKeys]
    by_cases hk : s = key
    · right
      rw [if_pos hk, if_pos hk]
      have hg2 : g < len := by
        rcases Nat.lt_or_ge g (array.take len).length with h | h
        · rw [List.length_take] at h
          omega
        · rw [List.getElem?_eq_none h] at hs; cases hs
      have hlen2 : len - 1 ≤ (spliceArray array len g).length := by
        rw [length_spliceArray array len g hg2 hlen]
        omega
      have hitem := runFinal_settles item (spliceArray array len g) (len - 1) hlen2 hg.1
      have hdesc := settles_descend _ _ array len g s _ hlen hs hitem
      rw [take_spliceArray array len g hg2 hlen] at hdesc
      refine ⟨_, _, rfl, rfl, hdesc.mono ?_⟩
      intro t ht
      rcases List.mem_cons.mp ht with rfl | ht
      · simp [keys, hk]
      · exact List.mem_append_right _ (List.mem_append_left _ ht)
    · rw [if_neg hk, if_neg hk]
      rcases rangeSubCommandsFinal_settles rest s g array len hlen hs hg.2 with
        ⟨h1, h2⟩ | ⟨r, final, h1, h2, h3⟩
      · left
        exact ⟨h1, h2⟩
      · right
        refine ⟨r, final, h1, h2, h3.mono ?_⟩
        intro t ht
        rcases List.mem_append.mp ht with ht | ht
        · exact List.mem_append_left _ (List.mem_cons_of_mem _ ht)
        · exact List.mem_append_right _ (List.mem_append_right _ ht)
theorem runFinal_settles (v : Value) (array : List String) (len : Nat)
    (hlen : len ≤ array.length) (hg : v.GatesInRange) :
    Settles (runCall v (array.take len)) (runFinal v array len) (array.take len)
      (Value.allKeys v) := by
  match v with
  | .tree t =>
    rw [Value.GatesInRange] at hg
    rw [runCall, runFinal, Value.allKeys]
    exact Tree.dispatchFinal_settles t array len hlen hg
  | .fn cmd =>
    rw [runCall]
    simp only [runFinal, Value.allKeys]
    refine settles_leaf _ array len ?_
    simp only [minArgsCall, Resolution.passes]
    split
    · exact Or.inl ⟨_, rfl⟩
    · exact Or.inl ⟨_, rfl⟩
  | .func cmd =>
    rw [runCall]
    simp only [runFinal, Value.allKeys]
    exact settles_leaf _ array len (Or.inl ⟨_, rfl⟩)
  | .other dyn =>
    rw [runCall]
    simp only [runFinal, Value.allKeys]
    exact settles_leaf _ array len (Or.inr rfl)
end

theorem rangeSubCommandsFinal_of_mem (entries : List (String × Value)) (s : String)
    (item : Value) (g : Nat) (array : List String) (len : Nat) (hnd : (keys entries).Nodup)
    (h : (s, item) ∈ entries) :
    rangeSubCommandsFinal entries s g array len
      = some (Final.descend s (runFinal item (spliceArray array len g) (len - 1))) := by
  induction entries with
  | nil => simp at h
  | cons e rest ih =>
    obtain ⟨key, v⟩ := e
    simp only [keys, List.map_cons, List.nodup_cons] at hnd
    rcases List.mem_cons.mp h with heq | hmem
    · cases heq
      rw [rangeSubCommandsFinal, if_pos rfl]
    · have hne : s ≠ key := by
        rintro rfl
        exact hnd.1 (List.mem_map.mpr ⟨(s, item), hmem, rfl⟩)
      rw [rangeSubCommandsFinal, if_neg hne]
      exact ih hnd.2 hmem

theorem rangeSubCommandsFinal_removed (entries : List (String × Value)) (s : String) (g : Nat)
    (array : List String) (len : Nat) (final : Final)
    (h : rangeSubCommandsFinal entries s g array len = some final) : final.removed ≠ [] := by
  induction entries with
  | nil => rw [rangeSubCommandsFinal] at h; cases h
  | cons e rest ih =>
    obtain ⟨key, v⟩ := e
    rw [rangeSubCommandsFinal] at h
    split at h
    · cases h
      simp [Final.descend]
    · exact ih h

mutual
theorem Tree.dispatchFinal_unchanged (t : Tree) (array : List String) (len : Nat)
    (h : (Tree.DispatchFinal t array len).removed = []) :
    (Tree.DispatchFinal t array len).array = array := by
  match t with
  | .mk tFn none =>
    rw [Tree.DispatchFinal] at h ⊢
    exact runFinal_unchanged tFn array len h
  | .mk tFn (some entries) =>
    rw [Tree.DispatchFinal] at h ⊢
    split at h
    · rename_i hlt
      rw [if_pos hlt]
      cases hidx : index (List.take len array) (argsUntilSub tFn) with
      | error p => rfl
      | ok s =>
        rw [hidx] at h
        simp only at h ⊢
        cases hr : rangeSubCommandsFinal entries s (argsUntilSub tFn).toNat array len with
        | none =>
          rw [hr] at h
          exact runFinal_unchanged tFn array len h
        | some final =>
          rw [hr] at h
          exact absurd h (rangeSubCommandsFinal_removed entries s _ array len final hr)
    · rename_i hlt
      rw [if_neg hlt]
      exact runFinal_unchanged tFn array len h
theorem runFinal_unchanged (v : Value) (array : List String) (len : Nat)
    (h : (runFinal v array len).removed = []) : (runFinal v array len).array = array := by
  match v with
  | .tree t =>
    rw [runFinal] at h ⊢
    exact Tree.dispatchFinal_unchanged t array len h
  | .fn cmd => simp only [runFinal]
  | .func cmd => simp only [runFinal]
  | .other dyn => simp only [runFinal]
end

theorem take_len_spliceArray (array : List String) (len g : Nat) (hg : g < len)
    (hlen : len ≤ array.length) :
    ∃ last, (array.take len)[len - 1]? = some last
      ∧ (spliceArray array len g).take len
        = (array.take len).take g ++ (array.take len).drop (g + 1) ++ [last] := by
  have hl1 : len - 1 < array.length := by omega
  refine ⟨array[len - 1], ?_, ?_⟩
  · rw [List.getElem?_take_of_lt (by omega), List.getElem?_eq_getElem hl1]
  · have hA : (array.take g ++ (array.take len).drop (g + 1)).length = len - 1 := by
      simp only [List.length_append, List.length_take, List.length_drop]
      omega
    rw [spliceArray, List.take_append_eq_append_take, hA,
      List.take_of_length_le (by omega), List.take_take, Nat.min_eq_left (by omega),
      List.drop_eq_getElem_cons hl1]
    have h1 : len - (len - 1) = 1 := by omega
    rw [h1]
    rfl

/-- C18, as stated, fails when the matched value is a nested tree that matches in turn. On the
slice `[os, exist, foo]` the root of the test tree, with gate 0, matches `args[0]`; by the claim
the array would hold `[exist, foo, foo]` afterwards, but the nested `os` tree removes `exist`
from the same array and at the return of `Dispatch` it holds `[foo, foo, foo]`. -/
theorem dispatch_array_nested_match :
    argsUntilSub testTree.Fn = 0
      ∧ (["os", "exist", "foo"].take 3)[0]? = some "os"
      ∧ (Tree.DispatchFinal testTree ["os", "exist", "foo"] 3).removed = ["os", "exist"]
      ∧ (["os", "exist", "foo"].take 3).take 0 ++ (["os", "exist", "foo"].take 3).drop (0 + 1)
          ++ ["foo"] = ["exist", "foo", "foo"]
      ∧ (Tree.DispatchFinal testTree ["os", "exist", "foo"] 3).array = ["foo", "foo", "foo"]
      ∧ (Tree.DispatchFinal testTree ["os", "exist", "foo"] 3).array
          ≠ (["os", "exist", "foo"].take 3).take 0
            ++ (["os", "exist", "foo"].take 3).drop (0 + 1) ++ ["foo"] := by
  refine ⟨rfl, rfl, rfl, rfl, rfl, ?_⟩
  decide

/-- C18, amended. When a node with gate `g` matches the token `args[g]` of a slice of length
`len`, the matched value is resolved on the same backing array, which at that point holds, seen
at its original length, `args[0..g) ++ args[g+1..len) ++ [args[len-1]]`: the elements after index
`g` are shifted left and the last one is duplicated. That is the array at the return of
`Dispatch` when no further token is removed below the node, as when the matched value is not a
nested tree; otherwise it is what the dispatch of the matched value leaves of it. When no token
is removed at any level the array is unchanged. A second `Dispatch` of the same slice can
therefore route differently. -/
theorem dispatch_mutates_array (tFn : Value) (entries : List (String × Value))
    (array : List String) (len g : Nat) (s : String) (item : Value)
    (hgate : argsUntilSub tFn = (g : Int)) (hlen : len ≤ array.length)
    (hs : (array.take len)[g]? = some s) (hnd : (keys entries).Nodup)
    (hv : (s, item) ∈ entries) :
    Tree.DispatchFinal (.mk tFn (some entries)) array len
        = Final.descend s (runFinal item (spliceArray array len g) (len - 1))
      ∧ (∃ last, (array.take len)[len - 1]? = some last
          ∧ (spliceArray array len g).take len
            = (array.take len).take g ++ (array.take len).drop (g + 1) ++ [last])
      ∧ ((∀ t, item ≠ .tree t) →
          (Tree.DispatchFinal (.mk tFn (some entries)) array len).array
            = spliceArray array len g)
      ∧ (∀ (t : Tree) (array2 : List String) (len2 : Nat),
          (Tree.DispatchFinal t array2 len2).removed = [] →
          (Tree.DispatchFinal t array2 len2).array = array2)
      ∧ (Tree.DispatchFinal abTree ["a", "b"] 2).array = ["b", "b"]
      ∧ Tree.Dispatch abTree (["a", "b"].take 2) = .ok (osErrExist ["b"])
      ∧ Tree.Dispatch abTree ((Tree.DispatchFinal abTree ["a", "b"] 2).array.take 2)
          = .ok (osErrClosed ["b"])
      ∧ osErrExist ["b"] ≠ osErrClosed ["b"]
      ∧ ((runFinal item (spliceArray array len g) (len - 1)).removed = [] →
          (Tree.DispatchFinal (.mk tFn (some entries)) array len).array
            = spliceArray array len g)
      ∧ (Tree.DispatchFinal (.mk tFn (some entries)) array len).array
          = (runFinal item (spliceArray array len g) (len - 1)).array := by
  have hg : g < len := by
    rcases Nat.lt_or_ge g (array.take len).length with h | h
    · rw [List.length_take] at h
      omega
    · rw [List.getElem?_eq_none h] at hs; cases hs
  have hfinal : Tree.DispatchFinal (.mk tFn (some entries)) array len
      = Final.descend s (runFinal item (spliceArray array len g) (len - 1)) := by
    rw [Tree.DispatchFinal, hgate, if_pos (by exact_mod_cast hg), index_natCast hs]
    simp only [Int.toNat_ofNat]
    rw [rangeSubCommandsFinal_of_mem entries s item g array len hnd hv]
  refine ⟨hfinal, take_len_spliceArray array len g hg hlen, ?_,
    Tree.dispatchFinal_unchanged, rfl, rfl, rfl, by decide, ?_, ?_⟩
  · intro hleaf
    rw [hfinal]
    cases item with
    | tree t => exact absurd rfl (hleaf t)
    | fn cmd => simp only [Final.descend, runFinal]
    | func cmd => simp only [Final.descend, runFinal]
    | other dyn => simp only [Final.descend, runFinal]
  · intro hnone
    rw [hfinal]
    simp only [Final.descend]
    exact runFinal_unchanged item _ _ hnone
  · rw [hfinal]
    simp only [Final.descend]

/-- C18, amended, on the command line `os exist foo`: after the match of `os` the array holds
`[exist, foo, foo]`, on which the nested `os` tree is dispatched; that tree removes `exist` in
turn, which leaves `[foo, foo, foo]` at the return. -/
theorem dispatch_mutates_array_witness :
    argsUntilSub testTree.Fn = ((0 : Nat) : Int)
      ∧ 3 ≤ ["os", "exist", "foo"].length
      ∧ (["os", "exist", "foo"].take 3)[0]? = some "os"
      ∧ spliceArray ["os", "exist", "foo"] 3 0 = ["exist", "foo", "foo"]
      ∧ Tree.DispatchFinal testTree ["os", "exist", "foo"] 3
          = Final.descend "os" (runFinal (.tree osTree) ["exist", "foo", "foo"] 2)
      ∧ (Tree.DispatchFinal testTree ["os", "exist", "foo"] 3).array = ["foo", "foo", "foo"] :=
  ⟨rfl, by decide, rfl, rfl,
    (dispatch_mutates_array (.func ioEOF)
      [("os", .tree osTree), ("http", .func httpErrContentLength), ("io", .func ioEOF),
        ("bad", .other "citizen")] ["os", "exist", "foo"] 3 0 "os" (.tree osTree) rfl
      (by decide) rfl (by simp [keys]) (by simp)).1,
    rfl⟩

/-- C19. For a tree in which every `Fn` has `MinArgs ≥ 0` and every argument list, the dispatch
ends by applying a leaf function or `Invalid` to a list `a` that is an order-preserving
subsequence of `args`: with `d` the number of tokens removed on the way, each of them a key of
a subcommand map of the tree, `len(a) + d = len(args)`, `d ≤ len(args)`, and `args` is made of
the elements of `a` and the tokens removed, so nothing is duplicated, reordered or invented. -/
theorem dispatch_passes_subsequence (t : Tree) (args : List String) (h : t.NonnegGates) :
    ∃ a, (Tree.DispatchCall t args).passes a
      ∧ Tree.Dispatch t args = (Tree.DispatchCall t args).result
      ∧ a.Sublist args
      ∧ a.length + (Tree.DispatchFinal t args args.length).removed.length = args.length
      ∧ (Tree.DispatchFinal t args args.length).removed.length ≤ args.length
      ∧ args.Perm (a ++ (Tree.DispatchFinal t args args.length).removed)
      ∧ ∀ s ∈ (Tree.DispatchFinal t args args.length).removed, s ∈ Tree.allKeys t := by
  have hs := Tree.dispatchFinal_settles t args args.length (Nat.le_refl _)
    (Tree.gatesInRange_of_nonneg t h)
  rw [List.take_length] at hs
  obtain ⟨a, h1, -, h3, h4, h5, h6⟩ := hs
  exact ⟨a, h1, (Tree.result_DispatchCall t args).symm, h4, h3, by omega, h5, h6⟩

/-- C19 on the command line `os exist foo bar` of the test tree: the `exist` handler is applied
to `[foo, bar]` after the two tokens `os` and `exist` were removed. -/
theorem dispatch_passes_subsequence_witness :
    testTree.NonnegGates
      ∧ Tree.DispatchCall testTree ["os", "exist", "foo", "bar"]
          = .call osErrExist ["foo", "bar"]
      ∧ (Tree.DispatchFinal testTree ["os", "exist", "foo", "bar"] 4).removed = ["os", "exist"]
      ∧ ∃ a, (Tree.DispatchCall testTree ["os", "exist", "foo", "bar"]).passes a
          ∧ a.Sublist ["os", "exist", "foo", "bar"] := by
  have h : testTree.NonnegGates := by
    simp [testTree, osTree, Tree.NonnegGates, Value.NonnegGates, entriesNonnegGates]
  obtain ⟨a, h1, -, h3, -⟩ :=
    dispatch_passes_subsequence testTree ["os", "exist", "foo", "bar"] h
  exact ⟨h, rfl, rfl, a, h1, h3⟩

end Cli
